import Mathlib

set_option maxHeartbeats 1000000

/-!
Verification development for the holographic-memory subsystem of the
`openforge` repository (files `src/prometheus/memory/holographic_pure.py`
and `src/prometheus/memory/holographic.py`).

Conventions of the shallow embedding:
* Python `str` content is represented by its UTF-8 byte sequence, `List ℕ`.
* Python floats are embedded as real numbers `ℝ` (exact arithmetic); the
  transform uses `Real.cos`, `Real.sin`, `Real.sqrt` and `Complex.arg`
  (the latter is exactly `math.atan2 im re`).
* Python dicts (which preserve insertion order) are embedded as
  insertion-ordered association lists `List (ℕ × α)`; assignment to an
  existing key replaces the value in place, assignment to a new key appends.
* Pattern ids (hex digests) and tags (strings) are embedded as abstract
  tokens `ℕ`; the content hash `sha256(content)[:16]` is an unembeddable
  deterministic function of the content and is therefore a parameter `pid`
  of the store operations.
* Operations that can raise a Python exception return `Except PyErr _`.
* The store/eviction/index bookkeeping of the two Python variants is
  identical; it only compares coherence values by `≤`, so it is stated over
  an arbitrary linearly ordered coherence type `β` and later instantiated
  at `ℝ` for the full transform pipeline (and at `ℕ` to evaluate concrete
  runs of the bookkeeping in the kernel).
-/

/-- Exceptions the embedded Python code can raise: `ZeroDivisionError`
(float division by zero) and `ValueError` (from `bytes(...)` on an
out-of-range integer). -/
inductive PyErr where
  | zeroDiv
  | valueErr
deriving DecidableEq

deriving instance DecidableEq for Except

/-- A holographic memory pattern, from `MemoryPattern` in
`holographic_pure.py` (lines 13-20).  The `id` field duplicates the dict
key and is omitted; of the free-form `metadata` dict only the `tags` entry
is ever read by the system, so the embedding keeps exactly that entry. -/
structure MemoryPattern (β : Type) where
  phase_spectrum : List β
  amplitude_spectrum : List β
  tags : List ℕ
  coherence : β
deriving DecidableEq

/-- The store state, from `HolographicMemory.__init__`
(`holographic_pure.py` lines 28-32): configuration plus the id→pattern
dict and the tag→ids index dict. -/
structure HolographicMemory (β : Type) where
  dimensions : ℕ
  max_patterns : ℕ
  patterns : List (ℕ × MemoryPattern β)
  index : List (ℕ × List ℕ)
deriving DecidableEq

/-- Python dict lookup `d[k]` / `k in d` on an insertion-ordered
association list. -/
def dictGet? {α : Type} (k : ℕ) : List (ℕ × α) → Option α
  | [] => none
  | (k2, v) :: rest => if k = k2 then some v else dictGet? k rest

/-- Python dict assignment `d[k] = v`: replace in place if the key exists,
append otherwise. -/
def dictInsert {α : Type} (k : ℕ) (v : α) : List (ℕ × α) → List (ℕ × α)
  | [] => [(k, v)]
  | (k2, v2) :: rest =>
    if k = k2 then (k, v) :: rest else (k2, v2) :: dictInsert k v rest

/-- Python `del d[k]` (removes the entry with key `k`; keys of reachable
dicts are unique). -/
def dictErase {α : Type} (k : ℕ) : List (ℕ × α) → List (ℕ × α)
  | [] => []
  | (k2, v2) :: rest => if k = k2 then rest else (k2, v2) :: dictErase k rest

/-- Python `if x in l: l.remove(x)`: drop the first occurrence of `x` if
present, otherwise leave the list unchanged (`holographic_pure.py`
lines 196-197). -/
def removeFirstOcc (x : ℕ) : List ℕ → List ℕ
  | [] => []
  | y :: ys => if y = x then ys else y :: removeFirstOcc x ys

/-- The tag-index update of `store` (`holographic_pure.py` lines 115-118):
`if tag not in index: index[tag] = []` followed by
`index[tag].append(pattern_id)`. -/
def indexAdd (tag pat : ℕ) : List (ℕ × List ℕ) → List (ℕ × List ℕ)
  | [] => [(tag, [pat])]
  | (t, l) :: rest =>
    if tag = t then (t, l ++ [pat]) :: rest else (t, l) :: indexAdd tag pat rest

/-- Insert `x` into an ascending-sorted accumulator, after every element
whose key is `≤ key x`.  Folding this over a list is a stable insertion
sort, the specification of Python's stable `sorted(..., key=...)`. -/
def insertAsc {π β : Type} [LinearOrder β] (key : π → β) (x : π) :
    List π → List π
  | [] => [x]
  | y :: ys => if key y ≤ key x then y :: insertAsc key x ys else x :: y :: ys

/-- Python `sorted(l, key=key)`: stable, ascending by key. -/
def pySort {π β : Type} [LinearOrder β] (key : π → β) (l : List π) : List π :=
  l.foldl (fun acc x => insertAsc key x acc) []

/-- Insert `x` into a descending-sorted accumulator, after every element
whose key is `≥ key x`.  Folding this over a list is a stable descending
sort, the specification of Python's `sorted(l, key=key, reverse=True)`. -/
def insertDesc {π β : Type} [LinearOrder β] (key : π → β) (x : π) :
    List π → List π
  | [] => [x]
  | y :: ys => if key x ≤ key y then y :: insertDesc key x ys else x :: y :: ys

/-- Python `sorted(l, key=key, reverse=True)`: stable, descending by key. -/
def pySortDesc {π β : Type} [LinearOrder β] (key : π → β) (l : List π) :
    List π :=
  l.foldl (fun acc x => insertDesc key x acc) []

/-- `heapq.nlargest(n, l, key=key)`, which the Python documentation
specifies as equivalent to `sorted(l, key=key, reverse=True)[:n]`. -/
def nlargest {π β : Type} [LinearOrder β] (n : ℕ) (l : List π) (key : π → β) :
    List π :=
  (pySortDesc key l).take n

/-- `HolographicMemory._prune_weakest` (`holographic_pure.py` lines
185-197): stable-sort the pattern dict items ascending by coherence, take
the lowest `len // 10` ids, delete each from the pattern dict and strip
its first occurrence from every tag-index list.  The source interleaves
the pattern deletion and the index cleanup per victim; the two fields are
disjoint, so the net effect equals folding each field separately. -/
def prune_weakest {β : Type} [LinearOrder β] (m : HolographicMemory β) :
    HolographicMemory β :=
  let sorted_patterns := pySort (fun pr => (pr.2).coherence) m.patterns
  let to_remove := sorted_patterns.length / 10
  let victims := (sorted_patterns.take to_remove).map Prod.fst
  { m with
    patterns := victims.foldl (fun ps v => dictErase v ps) m.patterns,
    index := m.index.map
      (fun tl => (tl.1, victims.foldl (fun l v => removeFirstOcc v l) tl.2)) }

/-- `HolographicMemory.store` (`holographic_pure.py` lines 95-123),
parameterised by the content hash `pid` (modelling
`sha256(content.encode()).hexdigest()[:16]`) and by the spectrum
construction `mk` (modelling `_text_to_wave` + `_dft` + the coherence
mean; it receives `self.dimensions` and the content bytes and may raise).
Returns the final state together with the returned `pattern_id`. -/
def store {β : Type} [LinearOrder β] (pid : List ℕ → ℕ)
    (mk : ℕ → List ℕ → Except PyErr (List β × List β × β))
    (m : HolographicMemory β) (content : List ℕ) (tags : List ℕ) :
    Except PyErr (HolographicMemory β × ℕ) :=
  match mk m.dimensions content with
  | .error e => .error e
  | .ok pa =>
    let pattern_id := pid content
    let pat : MemoryPattern β :=
      { phase_spectrum := pa.1, amplitude_spectrum := pa.2.1,
        tags := tags, coherence := pa.2.2 }
    let m1 : HolographicMemory β :=
      { m with patterns := dictInsert pattern_id pat m.patterns }
    let m2 : HolographicMemory β :=
      { m1 with index := tags.foldl (fun ix tg => indexAdd tg pattern_id ix) m1.index }
    let m3 := if m2.patterns.length > m2.max_patterns then prune_weakest m2 else m2
    .ok (m3, pattern_id)

/-- A sequence of `store` calls (content bytes and metadata tags), applied
from left to right; a call that raises leaves the state unchanged (the
exception propagates before any mutation in the source: `_dft` runs before
`self.patterns` is touched). -/
def runStores {β : Type} [LinearOrder β] (pid : List ℕ → ℕ)
    (mk : ℕ → List ℕ → Except PyErr (List β × List β × β))
    (m : HolographicMemory β) (ops : List (List ℕ × List ℕ)) :
    HolographicMemory β :=
  ops.foldl
    (fun acc op =>
      match store pid mk acc op.1 op.2 with
      | .ok r => r.1
      | .error _ => acc) m

/-- CPython `bytes.decode('utf-8', errors='ignore')`, modelled from the
UTF-8 validity rules (RFC 3629) that CPython's decoder implements: valid
sequences yield their code point, the leading byte of a malformed sequence
is skipped, and a sequence truncated by the end of input is dropped.  The
first argument is recursion fuel: every step consumes at least one input
byte, so the input's length (supplied by the wrapper below) is always
enough, and the `0`-fuel clause is never reached. -/
def utf8DecodeIgnoreAux : ℕ → List ℕ → List ℕ
  | 0, _ => []
  | _ + 1, [] => []
  | fuel + 1, b :: rest =>
    if b < 128 then b :: utf8DecodeIgnoreAux fuel rest
    else if 194 ≤ b ∧ b ≤ 223 then
      match rest with
      | c :: rest2 =>
        if 128 ≤ c ∧ c ≤ 191 then
          ((b - 192) * 64 + (c - 128)) :: utf8DecodeIgnoreAux fuel rest2
        else utf8DecodeIgnoreAux fuel (c :: rest2)
      | [] => []
    else if 224 ≤ b ∧ b ≤ 239 then
      match rest with
      | c :: d :: rest3 =>
        if (128 ≤ c ∧ c ≤ 191) ∧ (b = 224 → 160 ≤ c) ∧ (b = 237 → c ≤ 159)
            ∧ (128 ≤ d ∧ d ≤ 191) then
          ((b - 224) * 4096 + (c - 128) * 64 + (d - 128))
            :: utf8DecodeIgnoreAux fuel rest3
        else utf8DecodeIgnoreAux fuel (c :: d :: rest3)
      | _ => []
    else if 240 ≤ b ∧ b ≤ 244 then
      match rest with
      | c :: d :: e :: rest4 =>
        if (128 ≤ c ∧ c ≤ 191) ∧ (b = 240 → 144 ≤ c) ∧ (b = 244 → c ≤ 143)
            ∧ (128 ≤ d ∧ d ≤ 191) ∧ (128 ≤ e ∧ e ≤ 191) then
          ((b - 240) * 262144 + (c - 128) * 4096 + (d - 128) * 64 + (e - 128))
            :: utf8DecodeIgnoreAux fuel rest4
        else utf8DecodeIgnoreAux fuel (c :: d :: e :: rest4)
      | _ => []
    else utf8DecodeIgnoreAux fuel rest

/-- `bytes.decode('utf-8', errors='ignore')`: run the decoder with enough
fuel for the whole input. -/
def utf8DecodeIgnore (l : List ℕ) : List ℕ := utf8DecodeIgnoreAux l.length l

/-- Characters Python `str.strip()` removes from both ends (the ASCII
whitespace code points; every string the embedded decoder can produce here
is ASCII). -/
def isPySpace (c : ℕ) : Bool :=
  c == 9 || c == 10 || c == 11 || c == 12 || c == 13 || c == 32

/-- Python `s.strip()` on a string given as code points. -/
def pyStrip (l : List ℕ) : List ℕ :=
  ((l.dropWhile isPySpace).reverse.dropWhile isPySpace).reverse

/-- The code points of the degraded-content sentinel string
`"[Pattern degraded]"` (`holographic_pure.py` line 173). -/
def degradedSentinel : List ℕ :=
  [91, 80, 97, 116, 116, 101, 114, 110, 32, 100, 101, 103, 114, 97, 100, 101, 100, 93]

noncomputable section

/-- Python `int(x)` on a float: truncation toward zero. -/
def pyTrunc (x : ℝ) : ℤ := if 0 ≤ x then ⌊x⌋ else ⌈x⌉

/-- Python `bytes(iterable)`: raises `ValueError` unless every integer is
in `range(0, 256)` (`holographic_pure.py` line 176 performs no clamping
before this call). -/
def pyBytes (l : List ℤ) : Except PyErr (List ℕ) :=
  if ∀ z ∈ l, 0 ≤ z ∧ z < 256 then .ok (l.map Int.toNat) else .error .valueErr

/-- Python `max(l)` on a nonempty list (every call site guards the empty
case); on `[]` this definition returns the unused default `0`. -/
def pyMax (l : List ℝ) : ℝ := l.foldl max (l.headD 0)

/-- Python `min(l)` on a nonempty list, same convention as `pyMax`. -/
def pyMin (l : List ℝ) : ℝ := l.foldl min (l.headD 0)

/-- `HolographicMemory._text_to_wave` (`holographic_pure.py` lines 75-93):
content bytes to a `dimensions`-length signal.  Short content is laid out
byte-by-byte over a zero signal (`getD` returns the same `0` for the
padding); long content is chunk-averaged. -/
def text_to_wave (dimensions : ℕ) (bytes_data : List ℕ) : List ℝ :=
  if bytes_data.length < dimensions then
    (List.range dimensions).map (fun i => (bytes_data.getD i 0 : ℝ) / 255)
  else
    let chunk_size := bytes_data.length / dimensions
    (List.range dimensions).map (fun i =>
      let start := i * chunk_size
      let stop := min (start + chunk_size) bytes_data.length
      let chunk := (bytes_data.drop start).take (stop - start)
      (if chunk = [] then 0
       else (chunk.map (fun b => (b : ℝ))).sum / chunk.length) / 255)

/-- The `real[k]` accumulator of `_dft` (`holographic_pure.py` lines
40-43): `real[k] = Σ_t signal[t] * cos(-2π k t / n)`. -/
def dftRe (signal : List ℝ) (k : ℕ) : ℝ :=
  ∑ t in Finset.range signal.length,
    signal.getD t 0
      * Real.cos (-2 * Real.pi * (k : ℝ) * (t : ℝ) / (signal.length : ℝ))

/-- The `imag[k]` accumulator of `_dft` (`holographic_pure.py` lines
40-44): `imag[k] = Σ_t signal[t] * sin(-2π k t / n)`. -/
def dftIm (signal : List ℝ) (k : ℕ) : ℝ :=
  ∑ t in Finset.range signal.length,
    signal.getD t 0
      * Real.sin (-2 * Real.pi * (k : ℝ) * (t : ℝ) / (signal.length : ℝ))

/-- The raw amplitude `sqrt(real[k]^2 + imag[k]^2)` of `_dft`
(`holographic_pure.py` line 50). -/
def dftAmp (signal : List ℝ) (k : ℕ) : ℝ :=
  Real.sqrt (dftRe signal k ^ 2 + dftIm signal k ^ 2)

/-- The phase `math.atan2(imag[k], real[k])` of `_dft`
(`holographic_pure.py` line 51), which is `Complex.arg ⟨real, imag⟩`. -/
def dftPhase (signal : List ℝ) (k : ℕ) : ℝ :=
  Complex.arg ⟨dftRe signal k, dftIm signal k⟩

/-- `HolographicMemory._dft` (`holographic_pure.py` lines 34-59), built
from the named accumulators above.  The final normalisation
`[a / max_amp for a in amplitude]` raises `ZeroDivisionError` exactly when
the list is nonempty and its maximum is `0` (Python float division by zero
raises); the source has no guard. -/
def dft (signal : List ℝ) : Except PyErr (List ℝ × List ℝ) :=
  let n := signal.length
  let real := (List.range n).map (dftRe signal)
  let imag := (List.range n).map (dftIm signal)
  let amplitude := List.zipWith (fun re im => Real.sqrt (re ^ 2 + im ^ 2)) real imag
  let phase := List.zipWith (fun re im => Complex.arg ⟨re, im⟩) real imag
  let max_amp := if amplitude = [] then 1 else pyMax amplitude
  if amplitude ≠ [] ∧ max_amp = 0 then .error .zeroDiv
  else .ok (phase, amplitude.map (fun a => a / max_amp))

/-- `HolographicMemory._inverse_dft` (`holographic_pure.py` lines 61-73). -/
def inverse_dft (phase amplitude : List ℝ) : List ℝ :=
  let n := phase.length
  (List.range n).map (fun t : ℕ =>
    (∑ k in Finset.range n,
      (amplitude.getD k 0 * Real.cos (phase.getD k 0)
          * Real.cos (2 * Real.pi * (k : ℝ) * (t : ℝ) / (n : ℝ))
        - amplitude.getD k 0 * Real.sin (phase.getD k 0)
          * Real.sin (2 * Real.pi * (k : ℝ) * (t : ℝ) / (n : ℝ)))) / (n : ℝ))

/-- The spectrum-construction part of `store` (`holographic_pure.py` lines
99-102): `_text_to_wave`, `_dft`, and the coherence
`sum(amplitude)/len(amplitude) if amplitude else 0`.  This is the `mk`
argument the generic `store` takes. -/
def mkPattern (dimensions : ℕ) (content : List ℕ) :
    Except PyErr (List ℝ × List ℝ × ℝ) :=
  match dft (text_to_wave dimensions content) with
  | .error e => .error e
  | .ok pa =>
    .ok (pa.1, pa.2, if pa.2 = [] then 0 else pa.2.sum / pa.2.length)

/-- One entry of the `phase_diffs` list in `retrieve`
(`holographic_pure.py` lines 138-141). -/
def phase_diff (p1 p2 : ℝ) : ℝ := min |p1 - p2| (2 * Real.pi - |p1 - p2|)

/-- The phase-resonance part of `retrieve` (`holographic_pure.py` lines
137-143).  Divisions are embedded with Lean's total `x / 0 = 0`; the
Python divisions can only divide by zero when `dimensions = 0`. -/
def phase_score (pattern_phase query_phase : List ℝ) : ℝ :=
  let phase_diffs := List.zipWith phase_diff pattern_phase query_phase
  (phase_diffs.map (fun d => 1 - d / Real.pi)).sum / phase_diffs.length

/-- The amplitude-correlation part of `retrieve` (`holographic_pure.py`
lines 145-155), a Pearson correlation with `amp_score = 0` whenever
`denom_p * denom_q > 0` fails. -/
def amp_score (pattern_amp query_amp : List ℝ) : ℝ :=
  let mean_p := pattern_amp.sum / pattern_amp.length
  let mean_q := query_amp.sum / query_amp.length
  let numerator :=
    (List.zipWith (fun p q => (p - mean_p) * (q - mean_q)) pattern_amp query_amp).sum
  let denom_p := Real.sqrt ((pattern_amp.map (fun p => (p - mean_p) ^ 2)).sum)
  let denom_q := Real.sqrt ((query_amp.map (fun q => (q - mean_q) ^ 2)).sum)
  if denom_p * denom_q > 0 then numerator / (denom_p * denom_q) else 0

/-- The combined resonance of one stored pattern against the query
spectrum (`holographic_pure.py` line 158). -/
def resonance_of (pat : MemoryPattern ℝ) (query_phase query_amp : List ℝ) : ℝ :=
  (phase_score pat.phase_spectrum query_phase
    + amp_score pat.amplitude_spectrum query_amp) / 2 * pat.coherence

/-- `HolographicMemory.retrieve` (`holographic_pure.py` lines 125-163):
score every stored pattern, keep scores `>= threshold`, return the top
`top_k` via `heapq.nlargest`. -/
def retrieve (m : HolographicMemory ℝ) (query : List ℕ) (top_k : ℕ)
    (threshold : ℝ) : Except PyErr (List (ℕ × ℝ)) :=
  if m.patterns = [] then .ok []
  else
    match dft (text_to_wave m.dimensions query) with
    | .error e => .error e
    | .ok q =>
      let resonances :=
        (m.patterns.map (fun pr => (pr.1, resonance_of pr.2 q.1 q.2))).filter
          (fun x => threshold ≤ x.2)
      .ok (nlargest top_k resonances (fun x => x.2))

/-- `HolographicMemory.reconstruct` (`holographic_pure.py` lines 165-183).
`bytes(int(s * 255) for s in signal)` sits outside the `try`, so its
`ValueError` propagates; the `try` only wraps the decode, which with
`errors='ignore'` never raises, so the `"[Reconstruction failed]"` branch
is dead code.  The decoded text has its NUL characters removed and is then
stripped. -/
def reconstruct (m : HolographicMemory ℝ) (pattern_id : ℕ) :
    Except PyErr (Option (List ℕ)) :=
  match dictGet? pattern_id m.patterns with
  | none => .ok none
  | some pattern =>
    if pattern.coherence < 0.5 then .ok (some degradedSentinel)
    else
      let signal := inverse_dft pattern.phase_spectrum pattern.amplitude_spectrum
      match pyBytes (signal.map (fun s => pyTrunc (s * 255))) with
      | .error e => .error e
      | .ok bytes_data =>
        .ok (some (pyStrip ((utf8DecodeIgnore bytes_data).filter (fun c => c != 0))))

/-- `HolographicMemory.get_stats` of the pure variant
(`holographic_pure.py` lines 199-210), embedded as the returned dict's
key/value pairs in construction order.  All values are numeric. -/
def get_stats (m : HolographicMemory ℝ) : List (String × ℝ) :=
  if m.patterns = [] then [("patterns", 0), ("avg_coherence", 0)]
  else
    let coherences := m.patterns.map (fun pr => pr.2.coherence)
    [("patterns", m.patterns.length),
     ("avg_coherence", coherences.sum / coherences.length),
     ("size_kb", m.patterns.length * m.dimensions * 8 / 1024)]

/-- `HolographicMemory.get_stats` of the numpy variant (`holographic.py`
lines 217-235). -/
def get_stats_np (m : HolographicMemory ℝ) : List (String × ℝ) :=
  if m.patterns = [] then [("patterns", 0), ("avg_coherence", 0), ("size_mb", 0)]
  else
    let coherences := m.patterns.map (fun pr => pr.2.coherence)
    [("patterns", m.patterns.length),
     ("avg_coherence", coherences.sum / coherences.length),
     ("min_coherence", pyMin coherences),
     ("max_coherence", pyMax coherences),
     ("size_mb", m.patterns.length * (m.dimensions * 16) / (1024 * 1024)),
     ("dimensions", m.dimensions)]

/-- The amplitude-normalisation step of the numpy variant's
`_create_interference_pattern` (`holographic.py` lines 78-80):
`if np.max(amplitude) > 0: amplitude = amplitude / np.max(amplitude)` —
with a guard, unlike the pure variant's `_dft`. -/
def normalize_amplitude_np (amplitude : List ℝ) : List ℝ :=
  if 0 < pyMax amplitude then amplitude.map (fun a => a / pyMax amplitude)
  else amplitude

/-- `AssociativeWeb.link`, one direction (`holographic.py` lines 250-252):
`if a not in assoc: assoc[a] = []` then `assoc[a].append((b, strength))`. -/
def adjAppend (a b : ℕ) (strength : ℝ) (w : List (ℕ × List (ℕ × ℝ))) :
    List (ℕ × List (ℕ × ℝ)) :=
  match dictGet? a w with
  | none => dictInsert a [(b, strength)] w
  | some l => dictInsert a (l ++ [(b, strength)]) w

/-- `AssociativeWeb.link` (`holographic.py` lines 248-257): append the
edge under both endpoints, no deduplication. -/
def link (w : List (ℕ × List (ℕ × ℝ))) (pattern_a pattern_b : ℕ)
    (strength : ℝ) : List (ℕ × List (ℕ × ℝ)) :=
  adjAppend pattern_b pattern_a strength (adjAppend pattern_a pattern_b strength w)

/-- The `activated`/`next_level` update inside `spread_activation`
(`holographic.py` lines 272-275): record `na` only when the node is new or
strictly improved. -/
def spreadUpdate (st : List (ℕ × ℝ) × List (ℕ × ℝ)) (aid : ℕ) (na : ℝ) :
    List (ℕ × ℝ) × List (ℕ × ℝ) :=
  match dictGet? aid st.1 with
  | none => (dictInsert aid na st.1, dictInsert aid na st.2)
  | some old =>
    if old < na then (dictInsert aid na st.1, dictInsert aid na st.2) else st

/-- One hop of `spread_activation` (`holographic.py` lines 268-276):
expand every frontier node's adjacency list, with decay factor `0.8`,
starting from an empty `next_level`. -/
def spreadHop (w : List (ℕ × List (ℕ × ℝ))) (st : List (ℕ × ℝ) × List (ℕ × ℝ)) :
    List (ℕ × ℝ) × List (ℕ × ℝ) :=
  st.2.foldl
    (fun acc pa =>
      ((dictGet? pa.1 w).getD []).foldl
        (fun acc2 bs => spreadUpdate acc2 bs.1 (pa.2 * bs.2 * 0.8)) acc)
    (st.1, [])

/-- The `for _ in range(depth)` loop of `spread_activation`. -/
def spreadIter (w : List (ℕ × List (ℕ × ℝ))) :
    ℕ → List (ℕ × ℝ) × List (ℕ × ℝ) → List (ℕ × ℝ) × List (ℕ × ℝ)
  | 0, st => st
  | n + 1, st => spreadIter w n (spreadHop w st)

/-- `AssociativeWeb.spread_activation` (`holographic.py` lines 259-278):
iterate `depth` hops from `{start: 1.0}` and return the activation dict's
items sorted descending by activation. -/
def spread_activation (w : List (ℕ × List (ℕ × ℝ))) (start_pattern : ℕ)
    (depth : ℕ) : List (ℕ × ℝ) :=
  pySortDesc (fun x => x.2)
    (spreadIter w depth ([(start_pattern, 1)], [(start_pattern, 1)])).1

end


/-- The state transformation of a successful `store` call after the
spectrum construction: insert the pattern, index the tags, evict if over
capacity (`holographic_pure.py` lines 112-121).  `store` equals this on
its `.ok` path (`store_eq` below). -/
def storeStep {β : Type} [LinearOrder β] (pattern_id : ℕ)
    (pat : MemoryPattern β) (tags : List ℕ) (m : HolographicMemory β) :
    HolographicMemory β :=
  let m2 : HolographicMemory β :=
    { m with
      patterns := dictInsert pattern_id pat m.patterns,
      index := tags.foldl (fun ix tg => indexAdd tg pattern_id ix) m.index }
  if m2.patterns.length > m2.max_patterns then prune_weakest m2 else m2

/-- Concrete stand-in for the content digest used to evaluate runs of the
bookkeeping in the kernel: the contents fed to it below are single-byte
lists with pairwise distinct bytes, on which the head byte is injective
exactly as the digest is. -/
def pidHead (content : List ℕ) : ℕ := content.headD 0

/-- Concrete stand-in for the spectrum construction (empty spectra,
constant coherence `1`), for evaluating the bookkeeping in the kernel. -/
def mkTrivial : ℕ → List ℕ → Except PyErr (List ℕ × List ℕ × ℕ) :=
  fun _ _ => .ok ([], [], 1)

/-- Concrete stand-in for the spectrum construction in which content `[0]`
gets the strictly lowest coherence `0` and all other contents coherence
`1`, for evaluating eviction in the kernel. -/
def mkHeadCoh : ℕ → List ℕ → Except PyErr (List ℕ × List ℕ × ℕ) :=
  fun _ content => .ok ([], [], min (content.headD 0) 1)

/-- Nine store operations with distinct single-byte contents and no tags. -/
def nineStores : List (List ℕ × List ℕ) :=
  [([1], []), ([2], []), ([3], []), ([4], []), ([5], []), ([6], []),
   ([7], []), ([8], []), ([9], [])]

/-- Eleven store operations: content `[0]` stored twice under tag `7`,
then nine distinct contents; the final store triggers eviction of the
pattern of content `[0]`. -/
def dupTagOps : List (List ℕ × List ℕ) :=
  [([0], [7]), ([0], [7]), ([1], []), ([2], []), ([3], []), ([4], []),
   ([5], []), ([6], []), ([7], []), ([8], []), ([9], [])]

/-- The id/score pairs `retrieve` computes before thresholding
(`holographic_pure.py` lines 130-158): the query spectrum once, then one
resonance per stored pattern, in dict iteration order ( `[]` when the
query transform raises, which can only happen alongside `retrieve` itself
raising on a non-empty store). -/
noncomputable def queryScores (m : HolographicMemory ℝ) (q : List ℕ) :
    List (ℕ × ℝ) :=
  match dft (text_to_wave m.dimensions q) with
  | .error _ => []
  | .ok qs => m.patterns.map (fun pr => (pr.1, resonance_of pr.2 qs.1 qs.2))

/-- Keys of an embedded dict are unique (holds in every reachable state). -/
def keysNodup {α : Type} (l : List (ℕ × α)) : Prop := (l.map Prod.fst).Nodup

/-- The flattened list of `(node, candidate activation)` pairs one hop of
`spread_activation` processes, in processing order: every frontier entry
expands its adjacency list with decay `0.8` (`holographic.py` lines
269-272). -/
noncomputable def hopCands (w : List (ℕ × List (ℕ × ℝ)))
    (front : List (ℕ × ℝ)) : List (ℕ × ℝ) :=
  front.flatMap (fun pa =>
    ((dictGet? pa.1 w).getD []).map (fun bs => (bs.1, pa.2 * bs.2 * 0.8)))

/-- `WalkVal w start h v x`: some walk from `start` to `v` along graph
edges, of length at most `h` hops, has value `x` — the product of the edge
strengths along the walk with one factor `0.8` per hop, starting from the
source activation `1`.  This is the "paths within the hop budget"
vocabulary of the spread-activation claim. -/
inductive WalkVal (w : List (ℕ × List (ℕ × ℝ))) (start : ℕ) :
    ℕ → ℕ → ℝ → Prop where
  | base : WalkVal w start 0 start 1
  | step {h : ℕ} {u : ℕ} {a : ℝ} {v : ℕ} {s : ℝ} :
      WalkVal w start h u a → (v, s) ∈ (dictGet? u w).getD [] →
      WalkVal w start (h + 1) v (a * s * 0.8)
  | relax {h : ℕ} {v : ℕ} {x : ℝ} :
      WalkVal w start h v x → WalkVal w start (h + 1) v x

/-- The invariant tying the `(activated, current_level)` state after `h`
hops of `spread_activation` to walk values: recorded activations are
exactly the attained maxima of walk values within `h` hops, every
walk-reachable node is recorded, the frontier is a sub-dict of the
activations, every non-frontier node has already propagated its value to
its neighbours, and both dicts have unique keys. -/
def SpreadInv (w : List (ℕ × List (ℕ × ℝ))) (start : ℕ) (h : ℕ)
    (st : List (ℕ × ℝ) × List (ℕ × ℝ)) : Prop :=
  (∀ v x, dictGet? v st.1 = some x →
    WalkVal w start h v x ∧ ∀ y, WalkVal w start h v y → y ≤ x) ∧
  (∀ v y, WalkVal w start h v y → ∃ mv, dictGet? v st.1 = some mv) ∧
  (∀ v x, dictGet? v st.2 = some x → dictGet? v st.1 = some x) ∧
  (∀ u a, dictGet? u st.1 = some a → dictGet? u st.2 = none →
    ∀ bs ∈ (dictGet? u w).getD [], ∃ b,
      dictGet? bs.1 st.1 = some b ∧ a * bs.2 * 0.8 ≤ b) ∧
  keysNodup st.1 ∧ keysNodup st.2

/-- A concrete graph with a negative edge strength: node `0` linked to
node `1` with strengths `1` and `1/2` (parallel edges), and node `1`
linked to node `2` with strength `-1`. -/
noncomputable def wNeg : List (ℕ × List (ℕ × ℝ)) :=
  link (link (link [] 0 1 1) 0 1 (1 / 2)) 1 2 (-1)

/-! ## Bookkeeping lemmas for the store layer -/

lemma insertAsc_length {π β : Type} [LinearOrder β] (key : π → β) (x : π) :
    ∀ l : List π, (insertAsc key x l).length = l.length + 1
  | [] => rfl
  | y :: ys => by
    simp only [insertAsc]
    split
    · simp [insertAsc_length key x ys]
    · simp

lemma insertAsc_perm {π β : Type} [LinearOrder β] (key : π → β) (x : π) :
    ∀ l : List π, List.Perm (insertAsc key x l) (x :: l)
  | [] => List.Perm.refl _
  | y :: ys => by
    simp only [insertAsc]
    split
    · exact ((insertAsc_perm key x ys).cons y).trans (List.Perm.swap x y ys)
    · exact List.Perm.refl _

lemma foldl_insertAsc_perm {π β : Type} [LinearOrder β] (key : π → β) :
    ∀ (l acc : List π),
      List.Perm (l.foldl (fun acc x => insertAsc key x acc) acc) (acc ++ l)
  | [], acc => by simp
  | x :: xs, acc => by
    simp only [List.foldl_cons]
    refine (foldl_insertAsc_perm key xs (insertAsc key x acc)).trans ?_
    refine ((insertAsc_perm key x acc).append_right xs).trans ?_
    exact List.perm_middle.symm

lemma pySort_perm {π β : Type} [LinearOrder β] (key : π → β) (l : List π) :
    List.Perm (pySort key l) l := by
  simpa using foldl_insertAsc_perm key l []

lemma pySort_length {π β : Type} [LinearOrder β] (key : π → β) (l : List π) :
    (pySort key l).length = l.length :=
  (pySort_perm key l).length_eq

lemma dictGet?_eq_none_iff {α : Type} (k : ℕ) :
    ∀ l : List (ℕ × α), dictGet? k l = none ↔ k ∉ l.map Prod.fst
  | [] => by simp [dictGet?]
  | (k2, v) :: rest => by
    by_cases h : k = k2 <;>
      simp [dictGet?, h, dictGet?_eq_none_iff k rest]

lemma mem_keys_dictInsert {α : Type} (k k3 : ℕ) (v : α) :
    ∀ l : List (ℕ × α),
      k3 ∈ (dictInsert k v l).map Prod.fst → k3 = k ∨ k3 ∈ l.map Prod.fst
  | [] => by simp [dictInsert]
  | (k2, v2) :: rest => by
    by_cases h : k = k2
    · simp only [dictInsert, if_pos h, List.map_cons, List.mem_cons]
      subst h
      tauto
    · simp only [dictInsert, if_neg h, List.map_cons, List.mem_cons]
      intro hm
      rcases hm with hm | hm
      · exact Or.inr (Or.inl hm)
      · rcases mem_keys_dictInsert k k3 v rest hm with hh | hh
        · exact Or.inl hh
        · exact Or.inr (Or.inr hh)

lemma keysNodup_dictInsert {α : Type} (k : ℕ) (v : α) :
    ∀ l : List (ℕ × α), keysNodup l → keysNodup (dictInsert k v l)
  | [] => by simp [keysNodup, dictInsert]
  | (k2, v2) :: rest => by
    intro h
    simp only [keysNodup, List.map_cons, List.nodup_cons] at h
    by_cases hk : k = k2
    · subst hk
      simpa [keysNodup, dictInsert] using h
    · simp only [keysNodup, dictInsert, if_neg hk, List.map_cons, List.nodup_cons]
      refine ⟨fun hm => ?_, keysNodup_dictInsert k v rest h.2⟩
      rcases mem_keys_dictInsert k k2 v rest hm with hh | hh
      · exact hk hh.symm
      · exact h.1 hh

lemma dictInsert_length_le {α : Type} (k : ℕ) (v : α) :
    ∀ l : List (ℕ × α), (dictInsert k v l).length ≤ l.length + 1
  | [] => by simp [dictInsert]
  | (k2, v2) :: rest => by
    by_cases h : k = k2
    · simp [dictInsert, h]
    · simp only [dictInsert, if_neg h, List.length_cons]
      have := dictInsert_length_le k v rest
      omega

lemma mem_keys_dictErase_of_ne {α : Type} (k k2 : ℕ) (hne : k2 ≠ k) :
    ∀ l : List (ℕ × α),
      k2 ∈ l.map Prod.fst → k2 ∈ (dictErase k l).map Prod.fst
  | [] => by simp
  | (k3, v3) :: rest => by
    by_cases h : k = k3
    · subst h
      simp only [List.map_cons, List.mem_cons, dictErase, if_pos rfl]
      intro hm
      rcases hm with hm | hm
      · exact absurd hm hne
      · exact hm
    · simp only [dictErase, if_neg h, List.map_cons, List.mem_cons]
      intro hm
      rcases hm with hm | hm
      · exact Or.inl hm
      · exact Or.inr (mem_keys_dictErase_of_ne k k2 hne rest hm)

lemma dictErase_length {α : Type} (k : ℕ) :
    ∀ l : List (ℕ × α), k ∈ l.map Prod.fst →
      (dictErase k l).length + 1 = l.length
  | [] => by simp
  | (k2, v2) :: rest => by
    by_cases h : k = k2
    · simp [dictErase, h]
    · simp only [dictErase, if_neg h, List.map_cons, List.mem_cons, List.length_cons]
      intro hm
      rcases hm with hm | hm
      · exact absurd hm h
      · simp [dictErase_length k rest hm]

lemma mem_keys_dictErase_sub {α : Type} (k k2 : ℕ) :
    ∀ l : List (ℕ × α),
      k2 ∈ (dictErase k l).map Prod.fst → k2 ∈ l.map Prod.fst
  | [] => by simp [dictErase]
  | (k3, v3) :: rest => by
    by_cases h : k = k3
    · simp only [dictErase, if_pos h, List.map_cons, List.mem_cons]
      exact fun hm => Or.inr hm
    · simp only [dictErase, if_neg h, List.map_cons, List.mem_cons]
      intro hm
      rcases hm with hm | hm
      · exact Or.inl hm
      · exact Or.inr (mem_keys_dictErase_sub k k2 rest hm)

lemma keysNodup_dictErase {α : Type} (k : ℕ) :
    ∀ l : List (ℕ × α), keysNodup l → keysNodup (dictErase k l)
  | [] => by simp [keysNodup, dictErase]
  | (k2, v2) :: rest => by
    intro h
    simp only [keysNodup, List.map_cons, List.nodup_cons] at h
    by_cases hk : k = k2
    · simp only [keysNodup, dictErase, if_pos hk]
      exact h.2
    · simp only [keysNodup, dictErase, if_neg hk, List.map_cons, List.nodup_cons]
      exact ⟨fun hm => h.1 (mem_keys_dictErase_sub k k2 rest hm),
        keysNodup_dictErase k rest h.2⟩

lemma foldl_dictErase_length {α : Type} :
    ∀ (victims : List ℕ) (ps : List (ℕ × α)), victims.Nodup →
      (∀ v ∈ victims, v ∈ ps.map Prod.fst) →
      (victims.foldl (fun acc v => dictErase v acc) ps).length + victims.length
        = ps.length
  | [], ps => by simp
  | v :: vs, ps => by
    intro hnd hmem
    simp only [List.nodup_cons] at hnd
    simp only [List.foldl_cons, List.length_cons]
    have hv : v ∈ ps.map Prod.fst := hmem v (List.mem_cons_self v vs)
    have hlen := dictErase_length v ps hv
    have hrec := foldl_dictErase_length vs (dictErase v ps) hnd.2
      (fun v2 hv2 => mem_keys_dictErase_of_ne v v2
        (fun hEq => hnd.1 (hEq ▸ hv2)) ps (hmem v2 (List.mem_cons_of_mem v hv2)))
    omega

lemma keysNodup_foldl_dictErase {α : Type} :
    ∀ (victims : List ℕ) (ps : List (ℕ × α)), keysNodup ps →
      keysNodup (victims.foldl (fun acc v => dictErase v acc) ps)
  | [], _ => fun h => h
  | v :: vs, ps => fun h => by
    simp only [List.foldl_cons]
    exact keysNodup_foldl_dictErase vs (dictErase v ps) (keysNodup_dictErase v ps h)

lemma prune_weakest_patterns_length {β : Type} [LinearOrder β]
    (m : HolographicMemory β) (h : keysNodup m.patterns) :
    (prune_weakest m).patterns.length + m.patterns.length / 10
      = m.patterns.length := by
  have hperm := pySort_perm (fun pr : ℕ × MemoryPattern β => (pr.2).coherence)
    m.patterns
  have hkeys := hperm.map Prod.fst
  have hnd : ((pySort (fun pr : ℕ × MemoryPattern β => (pr.2).coherence)
      m.patterns).map Prod.fst).Nodup := hkeys.symm.nodup h
  have hlen := hperm.length_eq
  set srt := pySort (fun pr : ℕ × MemoryPattern β => (pr.2).coherence)
    m.patterns with hsrt
  set tr := srt.length / 10 with htr
  have hvic : ((srt.take tr).map Prod.fst) = (srt.map Prod.fst).take tr :=
    List.map_take Prod.fst srt tr
  have hvnd : ((srt.take tr).map Prod.fst).Nodup := by
    rw [hvic]; exact hnd.sublist (List.take_sublist _ _)
  have hvmem : ∀ v ∈ (srt.take tr).map Prod.fst, v ∈ m.patterns.map Prod.fst := by
    intro v hv
    rw [hvic] at hv
    exact hkeys.mem_iff.mp (List.take_subset _ _ hv)
  have hvlen : ((srt.take tr).map Prod.fst).length = tr := by
    rw [List.length_map, List.length_take]
    omega
  have hmain := foldl_dictErase_length ((srt.take tr).map Prod.fst)
    m.patterns hvnd hvmem
  rw [hvlen] at hmain
  simp only [prune_weakest, ← hsrt, ← htr]
  omega

lemma prune_weakest_keysNodup {β : Type} [LinearOrder β]
    (m : HolographicMemory β) (h : keysNodup m.patterns) :
    keysNodup (prune_weakest m).patterns := by
  simp only [prune_weakest]
  exact keysNodup_foldl_dictErase _ _ h

lemma store_eq {β : Type} [LinearOrder β] (pid : List ℕ → ℕ)
    (mk : ℕ → List ℕ → Except PyErr (List β × List β × β))
    (m : HolographicMemory β) (content tags : List ℕ) :
    store pid mk m content tags =
      match mk m.dimensions content with
      | .error e => .error e
      | .ok pa =>
        .ok (storeStep (pid content) ⟨pa.1, pa.2.1, tags, pa.2.2⟩ tags m,
          pid content) := by
  unfold store storeStep
  cases mk m.dimensions content <;> rfl

lemma prune_weakest_max_patterns {β : Type} [LinearOrder β]
    (m : HolographicMemory β) :
    (prune_weakest m).max_patterns = m.max_patterns := rfl

lemma storeStep_invariant {β : Type} [LinearOrder β] (pattern_id : ℕ)
    (pat : MemoryPattern β) (tags : List ℕ) (m : HolographicMemory β)
    (h1 : keysNodup m.patterns)
    (h2 : m.patterns.length ≤ max m.max_patterns 9) :
    keysNodup (storeStep pattern_id pat tags m).patterns ∧
    (storeStep pattern_id pat tags m).max_patterns = m.max_patterns ∧
    (storeStep pattern_id pat tags m).patterns.length ≤ max m.max_patterns 9 := by
  have hnd2 : keysNodup (dictInsert pattern_id pat m.patterns) :=
    keysNodup_dictInsert _ _ _ h1
  have hlen2 := dictInsert_length_le pattern_id pat m.patterns
  unfold storeStep
  dsimp only
  split
  · case isTrue hgt =>
    refine ⟨prune_weakest_keysNodup _ hnd2, rfl, ?_⟩
    have hp := prune_weakest_patterns_length
      ({ m with
          patterns := dictInsert pattern_id pat m.patterns,
          index := tags.foldl (fun ix tg => indexAdd tg pattern_id ix) m.index })
      hnd2
    dsimp only at hp hgt ⊢
    rcases max_cases m.max_patterns 9 with ⟨hx, hy⟩ | ⟨hx, hy⟩ <;> rw [hx] at h2 ⊢ <;> omega
  · case isFalse hle =>
    exact ⟨hnd2, rfl, by dsimp only at hle ⊢; omega⟩

lemma store_ok_invariant {β : Type} [LinearOrder β] (pid : List ℕ → ℕ)
    (mk : ℕ → List ℕ → Except PyErr (List β × List β × β))
    (m : HolographicMemory β) (content tags : List ℕ)
    (r : HolographicMemory β × ℕ) (hr : store pid mk m content tags = .ok r)
    (h1 : keysNodup m.patterns)
    (h2 : m.patterns.length ≤ max m.max_patterns 9) :
    keysNodup r.1.patterns ∧ r.1.max_patterns = m.max_patterns ∧
    r.1.patterns.length ≤ max m.max_patterns 9 := by
  rw [store_eq] at hr
  cases hmk : mk m.dimensions content with
  | error e => rw [hmk] at hr; cases hr
  | ok pa =>
    rw [hmk] at hr
    simp only [Except.ok.injEq] at hr
    rw [← hr]
    exact storeStep_invariant (pid content) ⟨pa.1, pa.2.1, tags, pa.2.2⟩ tags m h1 h2

lemma runStores_cons {β : Type} [LinearOrder β] (pid : List ℕ → ℕ)
    (mk : ℕ → List ℕ → Except PyErr (List β × List β × β))
    (m : HolographicMemory β) (op : List ℕ × List ℕ)
    (ops : List (List ℕ × List ℕ)) :
    runStores pid mk m (op :: ops) =
      runStores pid mk
        (match store pid mk m op.1 op.2 with
          | .ok r => r.1
          | .error _ => m) ops := rfl

lemma runStores_invariant {β : Type} [LinearOrder β] (pid : List ℕ → ℕ)
    (mk : ℕ → List ℕ → Except PyErr (List β × List β × β)) :
    ∀ (ops : List (List ℕ × List ℕ)) (m : HolographicMemory β),
      keysNodup m.patterns → m.patterns.length ≤ max m.max_patterns 9 →
      keysNodup (runStores pid mk m ops).patterns ∧
      (runStores pid mk m ops).max_patterns = m.max_patterns ∧
      (runStores pid mk m ops).patterns.length ≤ max m.max_patterns 9
  | [], m => fun h1 h2 => ⟨h1, rfl, h2⟩
  | op :: ops, m => fun h1 h2 => by
    rw [runStores_cons]
    cases hst : store pid mk m op.1 op.2 with
    | error e => exact runStores_invariant pid mk ops m h1 h2
    | ok r =>
      obtain ⟨a, b, c⟩ := store_ok_invariant pid mk m op.1 op.2 r hst h1 h2
      have hrec := runStores_invariant pid mk ops r.1 a (by rw [b]; exact c)
      rw [b] at hrec
      exact hrec

/-- **C3** (amended): with `max_patterns = M ≥ 1`, the population after any
sequence of `store` calls on an initially empty store never exceeds
`max M 9`: eviction removes `size // 10` patterns, which is zero for
populations below ten, so `M` itself is only a soft bound (`M = 1` is
exceeded, see the counterexample), but the population is still uniformly
bounded. -/
theorem C3_capacity_bound_amended {β : Type} [LinearOrder β]
    (pid : List ℕ → ℕ)
    (mk : ℕ → List ℕ → Except PyErr (List β × List β × β)) (dims M : ℕ)
    (ops : List (List ℕ × List ℕ)) (_hM : 1 ≤ M) :
    (runStores pid mk ⟨dims, M, [], []⟩ ops).patterns.length ≤ max M 9 :=
  (runStores_invariant pid mk ops ⟨dims, M, [], []⟩
    (by simp [keysNodup]) (by simp)).2.2

theorem C3_capacity_bound_amended_witness :
    1 ≤ 1 ∧
    (runStores pidHead mkTrivial ⟨4, 1, [], []⟩
      [([0], []), ([1], [])]).patterns.length ≤ max 1 9 :=
  ⟨le_refl 1,
    C3_capacity_bound_amended pidHead mkTrivial 4 1 [([0], []), ([1], [])]
      (le_refl 1)⟩

/-- **C3** counterexample: with `max_patterns = 1`, storing two distinct
contents leaves two patterns in the store at the moment the second `store`
call returns — eviction ran but removed `2 // 10 = 0` patterns, so the
claimed bound `size ≤ max_patterns` is violated. -/
theorem C3_counterexample :
    (runStores pidHead mkTrivial ⟨4, 1, [], []⟩
      [([0], []), ([1], [])]).max_patterns = 1 ∧
    1 < (runStores pidHead mkTrivial ⟨4, 1, [], []⟩
      [([0], []), ([1], [])]).patterns.length := by
  decide

/-- **C10**: `store` always returns `pid content` — the content digest of
the pattern it just inserted — regardless of what eviction did; and in the
concrete run below (nine resident patterns, `max_patterns = 9`, then one
store of a strictly-lowest-coherence content) the returned id's pattern
has already been evicted when the call returns. -/
theorem C10_store_returns_evicted_id :
    (∀ {β : Type} [LinearOrder β] (pid : List ℕ → ℕ)
        (mk : ℕ → List ℕ → Except PyErr (List β × List β × β))
        (m : HolographicMemory β) (content tags : List ℕ)
        (r : HolographicMemory β × ℕ),
        store pid mk m content tags = .ok r → r.2 = pid content) ∧
    (store pidHead mkHeadCoh
        (runStores pidHead mkHeadCoh ⟨4, 9, [], []⟩ nineStores) [0] []).map
      (fun r => (r.2, dictGet? 0 r.1.patterns)) = .ok (0, none) := by
  constructor
  · intro β _ pid mk m content tags r hr
    rw [store_eq] at hr
    cases hmk : mk m.dimensions content with
    | error e => rw [hmk] at hr; cases hr
    | ok pa =>
      rw [hmk] at hr
      simp only [Except.ok.injEq] at hr
      rw [← hr]
  · decide

theorem C10_store_returns_evicted_id_witness :
    store pidHead mkHeadCoh ⟨4, 9, [], []⟩ [5] [] =
      .ok (⟨4, 9, [(5, ⟨[], [], [], 1⟩)], []⟩, 5) ∧ (5 : ℕ) = pidHead [5] :=
  ⟨by decide,
    C10_store_returns_evicted_id.1 pidHead mkHeadCoh ⟨4, 9, [], []⟩ [5] []
      (⟨4, 9, [(5, ⟨[], [], [], 1⟩)], []⟩, 5) (by decide)⟩

/-- **C6** is false of the code (code bug): storing identical content
twice with the same tag appends the same id twice to that tag's index list
(`index[tag].append` never deduplicates), and after the eviction triggered
by the later stores the evicted id `0` is gone from the pattern dict yet
still present in tag `7`'s list, because `list.remove` only strips the
first of the two occurrences. -/
theorem C6_index_duplicate_and_dangling :
    (runStores pidHead mkHeadCoh ⟨4, 9, [], []⟩
      [([0], [7]), ([0], [7])]).index = [(7, [0, 0])] ∧
    dictGet? 0 (runStores pidHead mkHeadCoh ⟨4, 9, [], []⟩ dupTagOps).patterns
      = none ∧
    dictGet? 7 (runStores pidHead mkHeadCoh ⟨4, 9, [], []⟩ dupTagOps).index
      = some [0] := by
  decide

/-- **C7** counterexample: on an empty store the pure variant's
`get_stats` returns only `patterns` and `avg_coherence` — there is no
`min_coherence`, `max_coherence` or size field in the returned record, so
the claimed field set is wrong. -/
theorem C7_counterexample :
    get_stats ⟨1024, 100000, [], []⟩ = [("patterns", 0), ("avg_coherence", 0)] ∧
    "min_coherence" ∉ (get_stats ⟨1024, 100000, [], []⟩).map Prod.fst := by
  have h : get_stats ⟨1024, 100000, [], []⟩
      = [("patterns", 0), ("avg_coherence", 0)] := by
    unfold get_stats
    rw [if_pos rfl]
  refine ⟨h, ?_⟩
  rw [h]
  decide

/-- **C7** (amended): `get_stats` always returns a record with the pattern
count and the average coherence and never fails; on an empty store both
variants return zeros.  But minimum/maximum coherence appear only in the
numpy variant's non-empty record (never in the pure variant), and the pure
variant has a size estimate only when non-empty. -/
theorem C7_get_stats_amended (m : HolographicMemory ℝ) :
    ((get_stats m).map Prod.fst = ["patterns", "avg_coherence"] ∨
      (get_stats m).map Prod.fst = ["patterns", "avg_coherence", "size_kb"]) ∧
    (m.patterns = [] →
      get_stats m = [("patterns", 0), ("avg_coherence", 0)] ∧
      get_stats_np m = [("patterns", 0), ("avg_coherence", 0), ("size_mb", 0)]) ∧
    (m.patterns ≠ [] → (get_stats_np m).map Prod.fst =
      ["patterns", "avg_coherence", "min_coherence", "max_coherence",
        "size_mb", "dimensions"]) := by
  by_cases h : m.patterns = []
  · refine ⟨Or.inl ?_, fun _ => ⟨?_, ?_⟩, fun hne => absurd h hne⟩
    · unfold get_stats; rw [if_pos h]; rfl
    · unfold get_stats; rw [if_pos h]
    · unfold get_stats_np; rw [if_pos h]
  · refine ⟨Or.inr ?_, fun he => absurd he h, fun _ => ?_⟩
    · unfold get_stats; rw [if_neg h]; simp
    · unfold get_stats_np; rw [if_neg h]; simp

theorem C7_get_stats_amended_witness :
    get_stats ⟨1024, 100000, [], []⟩ = [("patterns", 0), ("avg_coherence", 0)] ∧
    get_stats_np ⟨1024, 100000, [], []⟩ =
      [("patterns", 0), ("avg_coherence", 0), ("size_mb", 0)] :=
  (C7_get_stats_amended ⟨1024, 100000, [], []⟩).2.1 rfl


/-! ## Evaluating the pure transform -/

lemma getD_map_range {α : Type} [Inhabited α] (f : ℕ → α) (n t : ℕ) :
    ((List.range n).map f).getD t default
      = if t < n then f t else default := by
  by_cases h : t < n
  · rw [if_pos h, List.getD_eq_getElem?_getD, List.getElem?_map,
      List.getElem?_range h]
    rfl
  · rw [if_neg h]
    apply List.getD_eq_default
    simpa using Nat.le_of_not_lt h

lemma zipWith_map_range {α : Type} (f : ℝ → ℝ → α) (g h : ℕ → ℝ) (n : ℕ) :
    List.zipWith f ((List.range n).map g) ((List.range n).map h)
      = (List.range n).map (fun k => f (g k) (h k)) := by
  rw [List.zipWith_map, List.zipWith_same]

lemma dft_error (signal : List ℝ) (hne : signal.length ≠ 0)
    (hmax : pyMax ((List.range signal.length).map (dftAmp signal)) = 0) :
    dft signal = .error .zeroDiv := by
  unfold dft
  dsimp only
  rw [zipWith_map_range, zipWith_map_range]
  have hnil : (List.range signal.length).map
      (fun k => Real.sqrt (dftRe signal k ^ 2 + dftIm signal k ^ 2)) ≠ [] := by
    simp [List.map_eq_nil_iff, hne]
  rw [if_neg hnil, if_pos ⟨hnil, hmax⟩]

lemma dft_ok (signal : List ℝ) (hne : signal.length ≠ 0)
    (hmax : pyMax ((List.range signal.length).map (dftAmp signal)) ≠ 0) :
    dft signal = .ok ((List.range signal.length).map (dftPhase signal),
      ((List.range signal.length).map (dftAmp signal)).map
        (fun a => a / pyMax ((List.range signal.length).map (dftAmp signal)))) := by
  unfold dft
  dsimp only
  rw [zipWith_map_range, zipWith_map_range]
  have hnil : (List.range signal.length).map
      (fun k => Real.sqrt (dftRe signal k ^ 2 + dftIm signal k ^ 2)) ≠ [] := by
    simp [List.map_eq_nil_iff, hne]
  rw [if_neg hnil, if_neg (fun hc => hmax hc.2)]
  rfl

lemma getD_replicate_zero (d t : ℕ) : (List.replicate d (0 : ℝ)).getD t 0 = 0 := by
  rw [List.getD_eq_getElem?_getD, List.getElem?_replicate]
  split <;> rfl

lemma pyMax_replicate_zero (d : ℕ) : pyMax (List.replicate d (0 : ℝ)) = 0 := by
  have haux : ∀ (k : ℕ), (List.replicate k (0 : ℝ)).foldl max 0 = 0 := by
    intro k
    induction k with
    | zero => rfl
    | succ n ih => simpa [List.replicate_succ, max_self] using ih
  cases d with
  | zero => rfl
  | succ n =>
    simp only [pyMax, List.replicate_succ, List.headD_cons, List.foldl_cons,
      max_self]
    exact haux n

lemma text_to_wave_nil (d : ℕ) (hd : 0 < d) :
    text_to_wave d [] = List.replicate d 0 := by
  unfold text_to_wave
  rw [if_pos (by simpa using hd)]
  have hcongr : ∀ i ∈ List.range d, (([] : List ℕ).getD i 0 : ℝ) / 255 = 0 := by
    intro i _
    simp
  rw [List.map_congr_left hcongr, List.map_const']
  simp

lemma dft_replicate_zero (d : ℕ) (hd : 0 < d) :
    dft (List.replicate d (0 : ℝ)) = .error .zeroDiv := by
  have hamp : ∀ k, dftAmp (List.replicate d (0 : ℝ)) k = 0 := by
    intro k
    unfold dftAmp dftRe dftIm
    rw [Finset.sum_eq_zero fun t _ => by rw [getD_replicate_zero]; ring,
      Finset.sum_eq_zero fun t _ => by rw [getD_replicate_zero]; ring]
    simp
  refine dft_error _ (by simpa using Nat.pos_iff_ne_zero.mp hd) ?_
  rw [List.map_congr_left (fun k _ => hamp k), List.map_const']
  simpa using pyMax_replicate_zero (List.range (List.replicate d (0:ℝ)).length).length

/-- **C2** fails on the pure implementation (code bug): storing the empty
string builds an all-zero signal, every raw amplitude is `0`, and the
unguarded normalisation `[a / max_amp for a in amplitude]` raises
`ZeroDivisionError` — `store` does not complete.  The numpy variant's
normalisation is guarded exactly as the claim describes: a zero maximum
leaves every amplitude entry at `0`. -/
theorem C2_store_empty_string_raises :
    store pidHead mkPattern ⟨64, 100000, [], []⟩ [] [] = .error .zeroDiv ∧
    (∀ d : ℕ, normalize_amplitude_np (List.replicate d 0) = List.replicate d 0) := by
  constructor
  · have hmk : mkPattern 64 [] = .error .zeroDiv := by
      unfold mkPattern
      rw [text_to_wave_nil 64 (by norm_num), dft_replicate_zero 64 (by norm_num)]
    rw [store_eq]
    simp only [hmk]
  · intro d
    unfold normalize_amplitude_np
    rw [if_neg (by simp [pyMax_replicate_zero])]

/-- **C1** fails on the pure implementation (code bug): on a stored
pattern with coherence `1 ≥ 0.5` whose inverse-transformed signal is the
single negative sample `-1` (phase spectrum `[π]`, amplitude spectrum
`[1]`, `dimensions = 1`), `reconstruct` performs no clamping:
`bytes(int(s * 255))` receives `-255` and raises `ValueError` instead of
returning a decoded string. -/
theorem C1_reconstruct_raises_without_clamping :
    inverse_dft [Real.pi] [1] = [-1] ∧
    reconstruct ⟨1, 100000, [(0, ⟨[Real.pi], [1], [], 1⟩)], []⟩ 0
      = .error .valueErr := by
  have hsig : inverse_dft [Real.pi] [1] = [-1] := by
    unfold inverse_dft
    simp [Finset.sum_range_one, Real.cos_pi, Real.sin_pi]
  refine ⟨hsig, ?_⟩
  unfold reconstruct
  have hget : dictGet? 0 [(0, (⟨[Real.pi], [1], [], 1⟩ : MemoryPattern ℝ))]
      = some ⟨[Real.pi], [1], [], 1⟩ := by
    simp [dictGet?]
  rw [hget]
  simp only
  rw [if_neg (by norm_num)]
  rw [hsig]
  have htr : pyTrunc (-1 * 255) = -255 := by
    unfold pyTrunc
    rw [if_neg (by norm_num)]
    rw [show ((-1 : ℝ) * 255) = ((-255 : ℤ) : ℝ) by norm_num, Int.ceil_intCast]
  simp only [List.map_cons, List.map_nil, htr]
  unfold pyBytes
  rw [if_neg]
  intro h
  have := h (-255) (by simp)
  omega

/-! ## Scoring lemmas -/

lemma phase_diff_self (p : ℝ) : phase_diff p p = 0 := by
  unfold phase_diff
  rw [sub_self, abs_zero, sub_zero]
  exact min_eq_left (by positivity)

lemma phase_score_self (l : List ℝ) (hne : l ≠ []) : phase_score l l = 1 := by
  unfold phase_score
  dsimp only
  rw [List.zipWith_same, List.map_congr_left (fun a _ => phase_diff_self a),
    List.map_map]
  have h2 : l.map ((fun d => 1 - d / Real.pi) ∘ fun _ => (0 : ℝ))
      = l.map (fun _ => 1) := List.map_congr_left fun a _ => by simp
  rw [h2, List.map_const', List.sum_replicate, List.length_map]
  have hlen : (l.length : ℝ) ≠ 0 := by
    simpa using List.length_eq_zero.not.mpr hne
  rw [nsmul_eq_mul, mul_one, div_self hlen]

lemma mem_zipWith_pair {f : ℝ → ℝ → ℝ} :
    ∀ {l1 l2 : List ℝ} {d : ℝ}, d ∈ List.zipWith f l1 l2 →
      ∃ x ∈ l1, ∃ y ∈ l2, d = f x y
  | [], _, _ => by simp
  | _ :: _, [], _ => by simp
  | a :: l1, b :: l2, d => by
    intro hd
    rcases List.mem_cons.mp hd with h | h
    · exact ⟨a, List.mem_cons_self _ _, b, List.mem_cons_self _ _, h⟩
    · obtain ⟨x, hx, y, hy, hxy⟩ := mem_zipWith_pair h
      exact ⟨x, List.mem_cons_of_mem _ hx, y, List.mem_cons_of_mem _ hy, hxy⟩

lemma phase_diff_bounds (p q : ℝ) (hp : |p| ≤ Real.pi) (hq : |q| ≤ Real.pi) :
    0 ≤ phase_diff p q ∧ phase_diff p q ≤ Real.pi := by
  unfold phase_diff
  have habs : |p - q| ≤ 2 * Real.pi := by
    calc |p - q| ≤ |p| + |q| := abs_sub p q
    _ ≤ 2 * Real.pi := by linarith
  constructor
  · exact le_min (abs_nonneg _) (by linarith)
  · rcases le_or_lt |p - q| Real.pi with h | h
    · exact (min_le_left _ _).trans h
    · exact (min_le_right _ _).trans (by linarith)

lemma phase_score_bounds (pp qp : List ℝ)
    (hp : ∀ x ∈ pp, |x| ≤ Real.pi) (hq : ∀ x ∈ qp, |x| ≤ Real.pi) :
    0 ≤ phase_score pp qp ∧ phase_score pp qp ≤ 1 := by
  unfold phase_score
  dsimp only
  set L := List.zipWith phase_diff pp qp with hL
  have hmem : ∀ d ∈ L, 0 ≤ d ∧ d ≤ Real.pi := by
    intro d hd
    obtain ⟨x, hx, y, hy, hxy⟩ := mem_zipWith_pair hd
    exact hxy ▸ phase_diff_bounds x y (hp x hx) (hq y hy)
  have hterm : ∀ e ∈ L.map (fun d => 1 - d / Real.pi), 0 ≤ e ∧ e ≤ 1 := by
    intro e he
    obtain ⟨d, hd, rfl⟩ := List.mem_map.mp he
    obtain ⟨hd0, hdpi⟩ := hmem d hd
    constructor
    · have : d / Real.pi ≤ 1 := (div_le_one Real.pi_pos).mpr hdpi
      linarith
    · have : 0 ≤ d / Real.pi := div_nonneg hd0 Real.pi_pos.le
      linarith
  have hsum0 : 0 ≤ (L.map (fun d => 1 - d / Real.pi)).sum :=
    List.sum_nonneg fun e he => (hterm e he).1
  have hsum1 : (L.map (fun d => 1 - d / Real.pi)).sum
      ≤ (L.map (fun d => 1 - d / Real.pi)).length • (1 : ℝ) :=
    List.sum_le_card_nsmul _ 1 fun e he => (hterm e he).2
  rw [List.length_map] at hsum1
  rcases Nat.eq_zero_or_pos L.length with hlen | hlen
  · have hnil : L = [] := List.length_eq_zero.mp hlen
    rw [hnil]
    norm_num
  · have hlpos : (0 : ℝ) < L.length := by exact_mod_cast hlen
    constructor
    · exact div_nonneg hsum0 hlpos.le
    · rw [div_le_one hlpos]
      simpa [nsmul_eq_mul] using hsum1

lemma map_sum_eq (g : ℝ → ℝ) :
    ∀ p : List ℝ, (p.map g).sum = ∑ i in Finset.range p.length, g (p.getD i 0)
  | [] => by simp
  | a :: p => by
    rw [List.map_cons, List.sum_cons, map_sum_eq g p, List.length_cons,
      Finset.sum_range_succ']
    simp [add_comm]

lemma zipWith_sum_eq (f : ℝ → ℝ → ℝ) :
    ∀ (p q : List ℝ), (List.zipWith f p q).sum
      = ∑ i in Finset.range (min p.length q.length),
          f (p.getD i 0) (q.getD i 0)
  | [], _ => by simp
  | _ :: _, [] => by simp
  | a :: p, b :: q => by
    rw [List.zipWith_cons_cons, List.sum_cons, zipWith_sum_eq f p q,
      List.length_cons, List.length_cons, Nat.succ_min_succ,
      Finset.sum_range_succ']
    simp [add_comm]

lemma amp_score_bounds (pa qa : List ℝ) :
    -1 ≤ amp_score pa qa ∧ amp_score pa qa ≤ 1 := by
  unfold amp_score
  dsimp only
  set mp := pa.sum / pa.length with hmp
  set mq := qa.sum / qa.length with hmq
  set Sp := (pa.map (fun p => (p - mp) ^ 2)).sum with hSp
  set Sq := (qa.map (fun q => (q - mq) ^ 2)).sum with hSq
  set num := (List.zipWith (fun p q => (p - mp) * (q - mq)) pa qa).sum with hnum
  split
  case isTrue hpos =>
    have hSp0 : 0 ≤ Sp := by
      rw [hSp]
      exact List.sum_nonneg fun e he => by
        obtain ⟨x, _, rfl⟩ := List.mem_map.mp he
        positivity
    have hSq0 : 0 ≤ Sq := by
      rw [hSq]
      exact List.sum_nonneg fun e he => by
        obtain ⟨x, _, rfl⟩ := List.mem_map.mp he
        positivity
    have hDp : Real.sqrt Sp ^ 2 = Sp := Real.sq_sqrt hSp0
    have hDq : Real.sqrt Sq ^ 2 = Sq := Real.sq_sqrt hSq0
    have hcs : num ^ 2 ≤ Sp * Sq := by
      rw [hnum, zipWith_sum_eq, hSp, hSq, map_sum_eq, map_sum_eq]
      calc (∑ i in Finset.range (min pa.length qa.length),
            (pa.getD i 0 - mp) * (qa.getD i 0 - mq)) ^ 2
          ≤ (∑ i in Finset.range (min pa.length qa.length),
              (pa.getD i 0 - mp) ^ 2)
            * ∑ i in Finset.range (min pa.length qa.length),
              (qa.getD i 0 - mq) ^ 2 :=
            Finset.sum_mul_sq_le_sq_mul_sq _ _ _
        _ ≤ (∑ i in Finset.range pa.length, (pa.getD i 0 - mp) ^ 2)
            * ∑ i in Finset.range qa.length, (qa.getD i 0 - mq) ^ 2 := by
            refine mul_le_mul ?_ ?_ ?_ ?_
            · exact Finset.sum_le_sum_of_subset_of_nonneg
                (Finset.range_subset.mpr (min_le_left _ _))
                (fun i _ _ => sq_nonneg _)
            · exact Finset.sum_le_sum_of_subset_of_nonneg
                (Finset.range_subset.mpr (min_le_right _ _))
                (fun i _ _ => sq_nonneg _)
            · exact Finset.sum_nonneg fun i _ => sq_nonneg _
            · exact Finset.sum_nonneg fun i _ => sq_nonneg _
    have hD2 : num ^ 2 ≤ (Real.sqrt Sp * Real.sqrt Sq) ^ 2 := by
      rw [mul_pow, hDp, hDq]
      exact hcs
    have h1 : num ≤ Real.sqrt Sp * Real.sqrt Sq := by nlinarith
    have h2 : -(Real.sqrt Sp * Real.sqrt Sq) ≤ num := by nlinarith
    constructor
    · rw [neg_le, ← neg_div]
      exact (div_le_one hpos).mpr (by linarith)
    · exact (div_le_one hpos).mpr h1
  case isFalse h => norm_num

lemma amp_score_self (l : List ℝ)
    (hvar : (l.map (fun p => (p - l.sum / l.length) ^ 2)).sum ≠ 0) :
    amp_score l l = 1 := by
  unfold amp_score
  dsimp only
  rw [List.zipWith_same]
  have hcongr : (l.map fun a => (a - l.sum / l.length) * (a - l.sum / l.length))
      = l.map (fun p => (p - l.sum / l.length) ^ 2) :=
    List.map_congr_left fun a _ => by ring
  rw [hcongr]
  set S := (l.map (fun p => (p - l.sum / l.length) ^ 2)).sum with hS
  have hS0 : 0 ≤ S := by
    rw [hS]
    exact List.sum_nonneg fun e he => by
      obtain ⟨x, _, rfl⟩ := List.mem_map.mp he
      positivity
  have hSpos : 0 < S := lt_of_le_of_ne hS0 (Ne.symm hvar)
  rw [Real.mul_self_sqrt hS0, if_pos hSpos]
  exact div_self hvar

lemma resonance_of_self (pat : MemoryPattern ℝ)
    (hph : pat.phase_spectrum ≠ [])
    (hvar : (pat.amplitude_spectrum.map
      (fun p => (p - pat.amplitude_spectrum.sum
        / pat.amplitude_spectrum.length) ^ 2)).sum ≠ 0) :
    resonance_of pat pat.phase_spectrum pat.amplitude_spectrum
      = pat.coherence := by
  unfold resonance_of
  rw [phase_score_self _ hph, amp_score_self _ hvar]
  ring

/-! ## Evaluating the pipeline on single-byte contents, dimensions = 1 -/

lemma pyMax_singleton (x : ℝ) : pyMax [x] = x := by
  simp [pyMax]

lemma text_to_wave_single (b : ℕ) : text_to_wave 1 [b] = [(b : ℝ) / 255] := by
  unfold text_to_wave
  rw [if_neg (by simp)]
  simp [List.range_succ]

lemma dft_single (s : ℝ) (hs : 0 < s) : dft [s] = .ok ([0], [1]) := by
  have hre : dftRe [s] 0 = s := by
    unfold dftRe
    simp [Finset.sum_range_one]
  have him : dftIm [s] 0 = 0 := by
    unfold dftIm
    simp [Finset.sum_range_one]
  have hamp : dftAmp [s] 0 = s := by
    unfold dftAmp
    rw [hre, him]
    simpa using Real.sqrt_sq hs.le
  have hphase : dftPhase [s] 0 = 0 := by
    unfold dftPhase
    rw [hre, him]
    exact Complex.arg_ofReal_of_nonneg hs.le
  have hmap : (List.range [s].length).map (dftAmp [s]) = [s] := by
    simp [List.range_succ, hamp]
  have hmax : pyMax ((List.range [s].length).map (dftAmp [s])) = s := by
    rw [hmap, pyMax_singleton]
  rw [dft_ok [s] (by simp) (by rw [hmax]; exact hs.ne.symm)]
  rw [hmap, pyMax_singleton]
  simp [List.range_succ, hphase, div_self hs.ne.symm]

lemma mkPattern_single (b : ℕ) (hb : 0 < b) :
    mkPattern 1 [b] = .ok ([0], [1], 1) := by
  unfold mkPattern
  rw [text_to_wave_single b, dft_single ((b : ℝ) / 255) (by positivity)]
  norm_num

lemma store_byte_97 :
    store pidHead mkPattern ⟨1, 100000, [], []⟩ [97] []
      = .ok (⟨1, 100000, [(97, ⟨[0], [1], [], 1⟩)], []⟩, 97) := by
  rw [store_eq]
  have hmk : mkPattern (⟨1, 100000, [], []⟩ : HolographicMemory ℝ).dimensions [97]
      = .ok ([0], [1], 1) := mkPattern_single 97 (by norm_num)
  rw [hmk]
  unfold storeStep
  simp [dictInsert, pidHead]

lemma store_byte_99 :
    store pidHead mkPattern ⟨1, 100000, [(97, ⟨[0], [1], [], 1⟩)], []⟩ [99] []
      = .ok (⟨1, 100000,
          [(97, ⟨[0], [1], [], 1⟩), (99, ⟨[0], [1], [], 1⟩)], []⟩, 99) := by
  rw [store_eq]
  have hmk : mkPattern
      (⟨1, 100000, [(97, ⟨[0], [1], [], 1⟩)], []⟩ : HolographicMemory ℝ).dimensions
      [99] = .ok ([0], [1], 1) := mkPattern_single 99 (by norm_num)
  rw [hmk]
  unfold storeStep
  simp [dictInsert, pidHead]

lemma runStores_pair_eval :
    runStores pidHead mkPattern ⟨1, 100000, [], []⟩ [([97], []), ([99], [])]
      = ⟨1, 100000, [(97, ⟨[0], [1], [], 1⟩), (99, ⟨[0], [1], [], 1⟩)], []⟩ := by
  simp only [runStores, List.foldl_cons, List.foldl_nil, store_byte_97,
    store_byte_99]

lemma amp_score_one_one : amp_score [1] [1] = 0 := by
  unfold amp_score
  dsimp only
  norm_num

lemma resonance_single : resonance_of ⟨[0], [1], [], 1⟩ [0] [1] = 1 / 2 := by
  unfold resonance_of
  dsimp only
  rw [phase_score_self [0] (by simp), amp_score_one_one]
  norm_num

lemma retrieve_pair_eval :
    retrieve ⟨1, 100000, [(97, ⟨[0], [1], [], 1⟩), (99, ⟨[0], [1], [], 1⟩)], []⟩
      [98] 5 (3 / 10) = .ok [(97, 1 / 2), (99, 1 / 2)] := by
  unfold retrieve
  rw [if_neg (by simp)]
  have hq : dft (text_to_wave
      (⟨1, 100000, [(97, ⟨[0], [1], [], 1⟩), (99, ⟨[0], [1], [], 1⟩)], []⟩ :
        HolographicMemory ℝ).dimensions [98]) = .ok ([0], [1]) := by
    rw [show (⟨1, 100000, [(97, ⟨[0], [1], [], 1⟩), (99, ⟨[0], [1], [], 1⟩)],
        []⟩ : HolographicMemory ℝ).dimensions = 1 from rfl]
    rw [text_to_wave_single 98]
    exact dft_single _ (by norm_num)
  rw [hq]
  dsimp only
  simp only [List.map_cons, List.map_nil, resonance_single]
  simp only [List.filter_cons, List.filter_nil, decide_eq_true_eq]
  rw [if_pos (by norm_num : (3 : ℝ) / 10 ≤ 1 / 2),
    if_pos (by norm_num : (3 : ℝ) / 10 ≤ 1 / 2)]
  unfold nlargest pySortDesc
  simp only [List.foldl_cons, List.foldl_nil]
  norm_num [insertDesc, List.take]

/-! ## The descending sort is a permutation and is sorted -/

lemma insertDesc_perm {π β : Type} [LinearOrder β] (key : π → β) (x : π) :
    ∀ l : List π, List.Perm (insertDesc key x l) (x :: l)
  | [] => List.Perm.refl _
  | y :: ys => by
    unfold insertDesc
    split
    · exact ((insertDesc_perm key x ys).cons y).trans (List.Perm.swap x y ys)
    · exact List.Perm.refl _

lemma foldl_insertDesc_perm {π β : Type} [LinearOrder β] (key : π → β) :
    ∀ (l acc : List π),
      List.Perm (l.foldl (fun acc x => insertDesc key x acc) acc) (acc ++ l)
  | [], acc => by simp
  | x :: xs, acc => by
    simp only [List.foldl_cons]
    refine (foldl_insertDesc_perm key xs (insertDesc key x acc)).trans ?_
    refine ((insertDesc_perm key x acc).append_right xs).trans ?_
    exact List.perm_middle.symm

lemma pySortDesc_perm {π β : Type} [LinearOrder β] (key : π → β) (l : List π) :
    List.Perm (pySortDesc key l) l := by
  simpa using foldl_insertDesc_perm key l []

lemma insertDesc_pairwise {π β : Type} [LinearOrder β] (key : π → β) (x : π) :
    ∀ l : List π, l.Pairwise (fun a b => key b ≤ key a) →
      (insertDesc key x l).Pairwise (fun a b => key b ≤ key a)
  | [] => fun _ => List.pairwise_singleton _ _
  | y :: ys => fun h => by
    rw [List.pairwise_cons] at h
    unfold insertDesc
    split
    case isTrue hxy =>
      rw [List.pairwise_cons]
      refine ⟨fun b hb => ?_, insertDesc_pairwise key x ys h.2⟩
      rcases List.mem_cons.mp ((insertDesc_perm key x ys).mem_iff.mp hb)
        with hb2 | hb2
      · exact hb2 ▸ hxy
      · exact h.1 b hb2
    case isFalse hxy =>
      rw [List.pairwise_cons]
      refine ⟨fun b hb => ?_, List.pairwise_cons.mpr h⟩
      rcases List.mem_cons.mp hb with hb2 | hb2
      · exact hb2 ▸ (le_of_not_le hxy)
      · exact (h.1 b hb2).trans (le_of_not_le hxy)

lemma pySortDesc_pairwise {π β : Type} [LinearOrder β] (key : π → β) (l : List π) :
    (pySortDesc key l).Pairwise (fun a b => key b ≤ key a) := by
  have haux : ∀ (l2 acc : List π), acc.Pairwise (fun a b => key b ≤ key a) →
      (l2.foldl (fun acc x => insertDesc key x acc) acc).Pairwise
        (fun a b => key b ≤ key a) := by
    intro l2
    induction l2 with
    | nil => exact fun acc h => h
    | cons x xs ih =>
      intro acc h
      exact ih (insertDesc key x acc) (insertDesc_pairwise key x acc h)
  exact haux l [] List.Pairwise.nil

lemma filter_length_mono {α : Type} (p q : α → Bool)
    (himp : ∀ a, p a = true → q a = true) :
    ∀ l : List α, (l.filter p).length ≤ (l.filter q).length
  | [] => le_refl 0
  | a :: l => by
    by_cases hpa : p a = true
    · rw [List.filter_cons, if_pos hpa, List.filter_cons, if_pos (himp a hpa)]
      simpa using filter_length_mono p q himp l
    · rw [List.filter_cons, if_neg hpa, List.filter_cons]
      split
      · exact (filter_length_mono p q himp l).trans (by simp)
      · exact filter_length_mono p q himp l

/-- **C5** (amended): for a fixed query and store, `retrieve` returns
exactly `min(top_k, number of patterns whose score meets the threshold)`
entries, sorted non-strictly descending by score (ties are possible and
keep their dict order — strict descent fails, see the counterexample), and
raising the threshold never increases the result count. -/
theorem C5_retrieve_amended (m : HolographicMemory ℝ) (q : List ℕ) (k : ℕ)
    (t t2 : ℝ) (res res2 : List (ℕ × ℝ)) (ht : t ≤ t2)
    (hres : retrieve m q k t = .ok res)
    (hres2 : retrieve m q k t2 = .ok res2) :
    res.length = min k ((queryScores m q).filter
        (fun x => decide (t ≤ x.2))).length ∧
    res.Pairwise (fun a b => b.2 ≤ a.2) ∧
    res2.length ≤ res.length := by
  by_cases hemp : m.patterns = []
  · have hqs : queryScores m q = [] := by
      unfold queryScores
      cases hdft : dft (text_to_wave m.dimensions q) <;> simp [hemp]
    unfold retrieve at hres hres2
    rw [if_pos hemp] at hres hres2
    simp only [Except.ok.injEq] at hres hres2
    rw [← hres, ← hres2, hqs]
    simp
  · unfold retrieve at hres hres2
    rw [if_neg hemp] at hres hres2
    cases hdft : dft (text_to_wave m.dimensions q) with
    | error e =>
      rw [hdft] at hres
      cases hres
    | ok qs =>
      rw [hdft] at hres hres2
      dsimp only at hres hres2
      simp only [Except.ok.injEq] at hres hres2
      have hqs : queryScores m q
          = m.patterns.map (fun pr => (pr.1, resonance_of pr.2 qs.1 qs.2)) := by
        unfold queryScores
        rw [hdft]
      rw [← hres, ← hres2, hqs]
      refine ⟨?_, ?_, ?_⟩
      · rw [nlargest, List.length_take,
          (pySortDesc_perm (fun x : ℕ × ℝ => x.2) _).length_eq]
      · exact ((pySortDesc_pairwise (fun x : ℕ × ℝ => x.2) _).sublist
          (List.take_sublist _ _))
      · rw [nlargest, nlargest, List.length_take, List.length_take,
          (pySortDesc_perm (fun x : ℕ × ℝ => x.2) _).length_eq,
          (pySortDesc_perm (fun x : ℕ × ℝ => x.2) _).length_eq]
        refine min_le_min (le_refl k) ?_
        refine filter_length_mono _ _ (fun a ha => ?_) _
        rw [decide_eq_true_eq] at ha ⊢
        exact ht.trans ha

theorem C5_retrieve_amended_witness :
    [((97 : ℕ), (1 : ℝ) / 2), (99, 1 / 2)].length
      = min 5 ((queryScores
          ⟨1, 100000, [(97, ⟨[0], [1], [], 1⟩), (99, ⟨[0], [1], [], 1⟩)], []⟩
          [98]).filter (fun x => decide ((3 : ℝ) / 10 ≤ x.2))).length ∧
    List.Pairwise (fun a b : ℕ × ℝ => b.2 ≤ a.2)
      [((97 : ℕ), (1 : ℝ) / 2), (99, 1 / 2)] ∧
    [((97 : ℕ), (1 : ℝ) / 2), (99, 1 / 2)].length
      ≤ [((97 : ℕ), (1 : ℝ) / 2), (99, 1 / 2)].length :=
  C5_retrieve_amended _ [98] 5 (3 / 10) (3 / 10) _ _ le_rfl
    retrieve_pair_eval retrieve_pair_eval

/-- **C5** counterexample: two stored single-byte contents (`"a"` and
`"c"`, `dimensions = 1`) have identical spectra, so the query `"b"` scores
both at exactly `1/2`; `retrieve` returns both with equal scores, which is
descending but not *strictly* descending. -/
theorem C5_counterexample :
    runStores pidHead mkPattern ⟨1, 100000, [], []⟩ [([97], []), ([99], [])]
      = ⟨1, 100000, [(97, ⟨[0], [1], [], 1⟩), (99, ⟨[0], [1], [], 1⟩)], []⟩ ∧
    retrieve ⟨1, 100000, [(97, ⟨[0], [1], [], 1⟩), (99, ⟨[0], [1], [], 1⟩)], []⟩
      [98] 5 (3 / 10) = .ok [(97, 1 / 2), (99, 1 / 2)] ∧
    ¬ List.Chain' (fun a b : ℕ × ℝ => b.2 < a.2)
      [(97, (1 : ℝ) / 2), (99, 1 / 2)] := by
  refine ⟨runStores_pair_eval, retrieve_pair_eval, ?_⟩
  simp

/-- **C8** (amended): the combined score before coherence scaling,
`(phase_score + amp_score) / 2`, lies in `[-0.5, 1]` whenever the phase
entries lie in `[-π, π]` (which `atan2` outputs always do); and a pattern
scored against a query identical to its own stored spectrum has
`phase_score = 1`, and `amp_score = 1` — hence resonance = coherence —
*provided* its amplitude spectrum has nonzero variance; with zero variance
the code defines `amp_score = 0` and the resonance is half the coherence
(see the counterexample). -/
theorem C8_score_bounds_amended :
    (∀ pp qp pa qa : List ℝ,
      (∀ x ∈ pp, |x| ≤ Real.pi) → (∀ x ∈ qp, |x| ≤ Real.pi) →
      -(1 / 2) ≤ (phase_score pp qp + amp_score pa qa) / 2 ∧
        (phase_score pp qp + amp_score pa qa) / 2 ≤ 1) ∧
    (∀ pat : MemoryPattern ℝ, pat.phase_spectrum ≠ [] →
      (pat.amplitude_spectrum.map (fun p =>
        (p - pat.amplitude_spectrum.sum
          / pat.amplitude_spectrum.length) ^ 2)).sum ≠ 0 →
      phase_score pat.phase_spectrum pat.phase_spectrum = 1 ∧
      amp_score pat.amplitude_spectrum pat.amplitude_spectrum = 1 ∧
      resonance_of pat pat.phase_spectrum pat.amplitude_spectrum
        = pat.coherence) := by
  constructor
  · intro pp qp pa qa hp hq
    obtain ⟨h1, h2⟩ := phase_score_bounds pp qp hp hq
    obtain ⟨h3, h4⟩ := amp_score_bounds pa qa
    constructor <;> linarith
  · intro pat hph hvar
    exact ⟨phase_score_self _ hph, amp_score_self _ hvar,
      resonance_of_self pat hph hvar⟩

theorem C8_score_bounds_amended_witness :
    (-(1 / 2) ≤ (phase_score [0] [0] + amp_score [1] [1]) / 2 ∧
      (phase_score [0] [0] + amp_score [1] [1]) / 2 ≤ 1) ∧
    (phase_score [0] [0] = 1 ∧ amp_score [1, 0] [1, 0] = 1 ∧
      resonance_of ⟨[0], [1, 0], [], 1⟩ [0] [1, 0] = 1) :=
  ⟨C8_score_bounds_amended.1 [0] [0] [1] [1]
      (by
        intro x hx
        rw [List.mem_singleton] at hx
        subst hx
        simpa using Real.pi_pos.le)
      (by
        intro x hx
        rw [List.mem_singleton] at hx
        subst hx
        simpa using Real.pi_pos.le),
    C8_score_bounds_amended.2 ⟨[0], [1, 0], [], 1⟩ (by simp) (by norm_num)⟩

/-- **C8** counterexample: the pattern stored from content `"a"` with
`dimensions = 1` has the constant amplitude spectrum `[1]` (zero
variance); scored against a query identical to its own stored signal,
`phase_score = 1` but `amp_score = 0`, so the resonance is `1/2` — half
the pattern's coherence `1`, not equal to it. -/
theorem C8_counterexample :
    runStores pidHead mkPattern ⟨1, 100000, [], []⟩ [([97], [])]
      = ⟨1, 100000, [(97, ⟨[0], [1], [], 1⟩)], []⟩ ∧
    phase_score [0] [0] = 1 ∧ amp_score [1] [1] = 0 ∧
    resonance_of ⟨[0], [1], [], 1⟩ [0] [1] = 1 / 2 ∧ ((1 : ℝ) / 2) ≠ 1 := by
  refine ⟨?_, phase_score_self [0] (by simp), amp_score_one_one,
    resonance_single, by norm_num⟩
  simp only [runStores, List.foldl_cons, List.foldl_nil, store_byte_97]

/-! ## Spreading activation: update and fold lemmas -/

lemma dictGet?_dictInsert_self {α : Type} (k : ℕ) (v : α) :
    ∀ l : List (ℕ × α), dictGet? k (dictInsert k v l) = some v
  | [] => by simp [dictGet?, dictInsert]
  | (k2, v2) :: rest => by
    by_cases h : k = k2 <;>
      simp [dictGet?, dictInsert, h, dictGet?_dictInsert_self k v rest]

lemma dictGet?_dictInsert_ne {α : Type} (k k2 : ℕ) (v : α) (hne : k2 ≠ k) :
    ∀ l : List (ℕ × α), dictGet? k2 (dictInsert k v l) = dictGet? k2 l
  | [] => by simp [dictGet?, dictInsert, hne]
  | (k3, v3) :: rest => by
    by_cases h : k = k3
    · subst h
      simp [dictGet?, dictInsert, hne]
    · by_cases h2 : k2 = k3 <;>
        simp [dictGet?, dictInsert, h, h2, dictGet?_dictInsert_ne k k2 v hne rest]

lemma mem_of_dictGet? {α : Type} {k : ℕ} {v : α} :
    ∀ {l : List (ℕ × α)}, dictGet? k l = some v → (k, v) ∈ l
  | [], h => by simp [dictGet?] at h
  | (k2, v2) :: rest, h => by
    by_cases hk : k = k2
    · subst hk
      rw [dictGet?, if_pos rfl] at h
      rw [Option.some.injEq] at h
      subst h
      exact List.mem_cons_self _ _
    · rw [dictGet?, if_neg hk] at h
      exact List.mem_cons_of_mem _ (mem_of_dictGet? h)

lemma dictGet?_of_mem {α : Type} {k : ℕ} {v : α} :
    ∀ {l : List (ℕ × α)}, keysNodup l → (k, v) ∈ l → dictGet? k l = some v
  | [], _, h => by simp at h
  | (k2, v2) :: rest, hnd, h => by
    simp only [keysNodup, List.map_cons, List.nodup_cons] at hnd
    rcases List.mem_cons.mp h with h2 | h2
    · rw [Prod.mk.injEq] at h2
      rw [dictGet?, if_pos h2.1, h2.2]
    · have hk : k ≠ k2 := by
        intro hEq
        subst hEq
        exact hnd.1 (List.mem_map.mpr ⟨(k, v), h2, rfl⟩)
      rw [dictGet?, if_neg hk]
      exact dictGet?_of_mem hnd.2 h2

lemma spreadUpdate_lookup_sound (st : List (ℕ × ℝ) × List (ℕ × ℝ))
    (aid : ℕ) (na : ℝ) (v : ℕ) (x : ℝ)
    (h : dictGet? v (spreadUpdate st aid na).1 = some x) :
    dictGet? v st.1 = some x ∨ (v = aid ∧ x = na) := by
  unfold spreadUpdate at h
  by_cases hv : v = aid
  · subst hv
    cases hold : dictGet? v st.1 with
    | none =>
      rw [hold] at h
      dsimp only at h
      rw [dictGet?_dictInsert_self] at h
      exact Or.inr ⟨rfl, (Option.some.injEq _ _ ▸ h).symm⟩
    | some old =>
      rw [hold] at h
      dsimp only at h
      split at h
      · rw [dictGet?_dictInsert_self] at h
        exact Or.inr ⟨rfl, (Option.some.injEq _ _ ▸ h).symm⟩
      · exact Or.inl (hold.symm.trans h)
  · cases hold : dictGet? aid st.1 with
    | none =>
      rw [hold] at h
      dsimp only at h
      rw [dictGet?_dictInsert_ne aid v na hv] at h
      exact Or.inl h
    | some old =>
      rw [hold] at h
      dsimp only at h
      split at h
      · rw [dictGet?_dictInsert_ne aid v na hv] at h
        exact Or.inl h
      · exact Or.inl h

lemma spreadUpdate_lookup_mono (st : List (ℕ × ℝ) × List (ℕ × ℝ))
    (aid : ℕ) (na : ℝ) (v : ℕ) (a : ℝ)
    (h : dictGet? v st.1 = some a) :
    ∃ b, dictGet? v (spreadUpdate st aid na).1 = some b ∧ a ≤ b := by
  unfold spreadUpdate
  by_cases hv : v = aid
  · subst hv
    rw [h]
    dsimp only
    split
    · exact ⟨na, dictGet?_dictInsert_self _ _ _, by linarith⟩
    · exact ⟨a, h, le_refl a⟩
  · cases hold : dictGet? aid st.1 with
    | none =>
      exact ⟨a, by
        dsimp only
        rw [dictGet?_dictInsert_ne aid v na hv]
        exact h, le_refl a⟩
    | some old =>
      dsimp only
      split
      · exact ⟨a, by rw [dictGet?_dictInsert_ne aid v na hv]; exact h, le_refl a⟩
      · exact ⟨a, h, le_refl a⟩

lemma spreadUpdate_lookup_self (st : List (ℕ × ℝ) × List (ℕ × ℝ))
    (aid : ℕ) (na : ℝ) :
    ∃ b, dictGet? aid (spreadUpdate st aid na).1 = some b ∧ na ≤ b := by
  unfold spreadUpdate
  cases hold : dictGet? aid st.1 with
  | none =>
    exact ⟨na, by dsimp only; rw [dictGet?_dictInsert_self], le_refl na⟩
  | some old =>
    dsimp only
    split
    · exact ⟨na, by rw [dictGet?_dictInsert_self], le_refl na⟩
    · case isFalse hlt => exact ⟨old, hold, le_of_not_lt hlt⟩

lemma foldUpd_lookup_sound :
    ∀ (cands : List (ℕ × ℝ)) (st : List (ℕ × ℝ) × List (ℕ × ℝ)) (v : ℕ) (x : ℝ),
      dictGet? v ((cands.foldl
        (fun acc c => spreadUpdate acc c.1 c.2) st).1) = some x →
      dictGet? v st.1 = some x ∨ (v, x) ∈ cands
  | [], st, v, x => fun h => Or.inl h
  | c :: cs, st, v, x => fun h => by
    rcases foldUpd_lookup_sound cs (spreadUpdate st c.1 c.2) v x h with h2 | h2
    · rcases spreadUpdate_lookup_sound st c.1 c.2 v x h2 with h3 | h3
      · exact Or.inl h3
      · refine Or.inr (List.mem_cons.mpr (Or.inl ?_))
        rw [Prod.ext_iff]
        exact h3
    · exact Or.inr (List.mem_cons_of_mem c h2)

lemma foldUpd_lookup_mono :
    ∀ (cands : List (ℕ × ℝ)) (st : List (ℕ × ℝ) × List (ℕ × ℝ)) (v : ℕ) (a : ℝ),
      dictGet? v st.1 = some a →
      ∃ b, dictGet? v ((cands.foldl
        (fun acc c => spreadUpdate acc c.1 c.2) st).1) = some b ∧ a ≤ b
  | [], st, v, a => fun h => ⟨a, h, le_refl a⟩
  | c :: cs, st, v, a => fun h => by
    obtain ⟨b1, hb1, hab1⟩ := spreadUpdate_lookup_mono st c.1 c.2 v a h
    obtain ⟨b, hb, hbb⟩ := foldUpd_lookup_mono cs (spreadUpdate st c.1 c.2) v b1 hb1
    exact ⟨b, hb, hab1.trans hbb⟩

lemma foldUpd_lookup_cand :
    ∀ (cands : List (ℕ × ℝ)) (st : List (ℕ × ℝ) × List (ℕ × ℝ)) (v : ℕ) (cv : ℝ),
      (v, cv) ∈ cands →
      ∃ b, dictGet? v ((cands.foldl
        (fun acc c => spreadUpdate acc c.1 c.2) st).1) = some b ∧ cv ≤ b
  | [], st, v, cv => fun h => absurd h (List.not_mem_nil _)
  | c :: cs, st, v, cv => fun h => by
    rcases List.mem_cons.mp h with h2 | h2
    · obtain rfl : c = (v, cv) := h2.symm
      obtain ⟨b1, hb1, hcb1⟩ := spreadUpdate_lookup_self st v cv
      obtain ⟨b, hb, hbb⟩ := foldUpd_lookup_mono cs (spreadUpdate st v cv) v b1 hb1
      exact ⟨b, hb, hcb1.trans hbb⟩
    · exact foldUpd_lookup_cand cs (spreadUpdate st c.1 c.2) v cv h2

lemma spreadUpdate_frontSub (st : List (ℕ × ℝ) × List (ℕ × ℝ))
    (aid : ℕ) (na : ℝ)
    (hfs : ∀ v x, dictGet? v st.2 = some x → dictGet? v st.1 = some x) :
    ∀ v x, dictGet? v (spreadUpdate st aid na).2 = some x →
      dictGet? v (spreadUpdate st aid na).1 = some x := by
  intro v x h
  unfold spreadUpdate at h ⊢
  by_cases hv : v = aid
  · subst hv
    cases hold : dictGet? v st.1 with
    | none =>
      rw [hold] at h
      dsimp only at h ⊢
      rw [dictGet?_dictInsert_self] at h
      rw [dictGet?_dictInsert_self]
      exact h
    | some old =>
      rw [hold] at h
      dsimp only at h ⊢
      split at h
      · rename_i hlt
        rw [if_pos hlt]
        rw [dictGet?_dictInsert_self] at h
        rw [dictGet?_dictInsert_self]
        exact h
      · rename_i hlt
        rw [if_neg hlt]
        exact hfs v x h
  · cases hold : dictGet? aid st.1 with
    | none =>
      rw [hold] at h
      dsimp only at h ⊢
      rw [dictGet?_dictInsert_ne aid v na hv] at h
      rw [dictGet?_dictInsert_ne aid v na hv]
      exact hfs v x h
    | some old =>
      rw [hold] at h
      dsimp only at h ⊢
      split at h
      · rename_i hlt
        rw [if_pos hlt]
        rw [dictGet?_dictInsert_ne aid v na hv] at h
        rw [dictGet?_dictInsert_ne aid v na hv]
        exact hfs v x h
      · rename_i hlt
        rw [if_neg hlt]
        exact hfs v x h

lemma foldUpd_frontSub :
    ∀ (cands : List (ℕ × ℝ)) (st : List (ℕ × ℝ) × List (ℕ × ℝ)),
      (∀ v x, dictGet? v st.2 = some x → dictGet? v st.1 = some x) →
      ∀ v x, dictGet? v ((cands.foldl
          (fun acc c => spreadUpdate acc c.1 c.2) st).2) = some x →
        dictGet? v ((cands.foldl
          (fun acc c => spreadUpdate acc c.1 c.2) st).1) = some x
  | [], st => fun h => h
  | c :: cs, st => fun h => by
    exact foldUpd_frontSub cs (spreadUpdate st c.1 c.2)
      (spreadUpdate_frontSub st c.1 c.2 h)

lemma spreadUpdate_front_none (st : List (ℕ × ℝ) × List (ℕ × ℝ))
    (aid : ℕ) (na : ℝ) (v : ℕ)
    (h : dictGet? v (spreadUpdate st aid na).2 = none) :
    dictGet? v (spreadUpdate st aid na).1 = dictGet? v st.1 ∧
      dictGet? v st.2 = none := by
  unfold spreadUpdate at h ⊢
  by_cases hv : v = aid
  · subst hv
    cases hold : dictGet? v st.1 with
    | none =>
      rw [hold] at h
      dsimp only at h
      rw [dictGet?_dictInsert_self] at h
      cases h
    | some old =>
      rw [hold] at h
      dsimp only at h ⊢
      split at h
      · rw [dictGet?_dictInsert_self] at h
        cases h
      · rename_i hlt
        rw [if_neg hlt]
        exact ⟨hold, h⟩
  · cases hold : dictGet? aid st.1 with
    | none =>
      rw [hold] at h
      dsimp only at h ⊢
      rw [dictGet?_dictInsert_ne aid v na hv] at h
      rw [dictGet?_dictInsert_ne aid v na hv]
      exact ⟨rfl, h⟩
    | some old =>
      rw [hold] at h
      dsimp only at h ⊢
      split at h
      · rename_i hlt
        rw [if_pos hlt, dictGet?_dictInsert_ne aid v na hv]
        rw [dictGet?_dictInsert_ne aid v na hv] at h
        exact ⟨rfl, h⟩
      · rename_i hlt
        rw [if_neg hlt]
        exact ⟨rfl, h⟩

lemma foldUpd_front_none :
    ∀ (cands : List (ℕ × ℝ)) (st : List (ℕ × ℝ) × List (ℕ × ℝ)) (v : ℕ),
      dictGet? v ((cands.foldl
        (fun acc c => spreadUpdate acc c.1 c.2) st).2) = none →
      dictGet? v ((cands.foldl
        (fun acc c => spreadUpdate acc c.1 c.2) st).1) = dictGet? v st.1 ∧
        dictGet? v st.2 = none
  | [], st, v => fun h => ⟨rfl, h⟩
  | c :: cs, st, v => fun h => by
    obtain ⟨h1, h2⟩ := foldUpd_front_none cs (spreadUpdate st c.1 c.2) v h
    obtain ⟨h3, h4⟩ := spreadUpdate_front_none st c.1 c.2 v h2
    exact ⟨h1.trans h3, h4⟩

lemma spreadUpdate_keysNodup (st : List (ℕ × ℝ) × List (ℕ × ℝ))
    (aid : ℕ) (na : ℝ) (h1 : keysNodup st.1) (h2 : keysNodup st.2) :
    keysNodup (spreadUpdate st aid na).1 ∧ keysNodup (spreadUpdate st aid na).2 := by
  unfold spreadUpdate
  cases dictGet? aid st.1 with
  | none => exact ⟨keysNodup_dictInsert _ _ _ h1, keysNodup_dictInsert _ _ _ h2⟩
  | some old =>
    dsimp only
    split
    · exact ⟨keysNodup_dictInsert _ _ _ h1, keysNodup_dictInsert _ _ _ h2⟩
    · exact ⟨h1, h2⟩

lemma foldUpd_keysNodup :
    ∀ (cands : List (ℕ × ℝ)) (st : List (ℕ × ℝ) × List (ℕ × ℝ)),
      keysNodup st.1 → keysNodup st.2 →
      keysNodup ((cands.foldl
        (fun acc c => spreadUpdate acc c.1 c.2) st).1) ∧
      keysNodup ((cands.foldl
        (fun acc c => spreadUpdate acc c.1 c.2) st).2)
  | [], st => fun h1 h2 => ⟨h1, h2⟩
  | c :: cs, st => fun h1 h2 => by
    obtain ⟨h3, h4⟩ := spreadUpdate_keysNodup st c.1 c.2 h1 h2
    exact foldUpd_keysNodup cs (spreadUpdate st c.1 c.2) h3 h4

lemma foldl_flatMap {α β γ : Type} (g : α → List β) (f : γ → β → γ) :
    ∀ (l : List α) (init : γ),
      (l.flatMap g).foldl f init
        = l.foldl (fun acc x => (g x).foldl f acc) init
  | [], _ => rfl
  | x :: xs, init => by
    rw [List.flatMap_cons, List.foldl_append, List.foldl_cons]
    exact foldl_flatMap g f xs _

lemma spreadHop_eq (w : List (ℕ × List (ℕ × ℝ)))
    (st : List (ℕ × ℝ) × List (ℕ × ℝ)) :
    spreadHop w st = (hopCands w st.2).foldl
      (fun acc c => spreadUpdate acc c.1 c.2) (st.1, []) := by
  unfold spreadHop hopCands
  rw [foldl_flatMap]
  congr 1
  funext acc pa
  rw [List.foldl_map]

lemma walkVal_zero {w : List (ℕ × List (ℕ × ℝ))} {start v : ℕ} {x : ℝ} :
    WalkVal w start 0 v x ↔ v = start ∧ x = 1 := by
  constructor
  · intro h
    cases h
    exact ⟨rfl, rfl⟩
  · rintro ⟨rfl, rfl⟩
    exact WalkVal.base

lemma walkVal_succ {w : List (ℕ × List (ℕ × ℝ))} {start : ℕ} {h : ℕ}
    {v : ℕ} {y : ℝ} :
    WalkVal w start (h + 1) v y ↔
      (WalkVal w start h v y ∨
        ∃ u a s, WalkVal w start h u a ∧ (v, s) ∈ (dictGet? u w).getD []
          ∧ y = a * s * 0.8) := by
  constructor
  · intro hw
    cases hw with
    | step hw2 hmem => exact Or.inr ⟨_, _, _, hw2, hmem, rfl⟩
    | relax hw2 => exact Or.inl hw2
  · rintro (hw | ⟨u, a, s, hw, hmem, rfl⟩)
    · exact WalkVal.relax hw
    · exact WalkVal.step hw hmem

lemma mem_hopCands {w : List (ℕ × List (ℕ × ℝ))} {F : List (ℕ × ℝ)}
    {v : ℕ} {x : ℝ} :
    (v, x) ∈ hopCands w F ↔
      ∃ pa ∈ F, ∃ bs ∈ (dictGet? pa.1 w).getD [],
        v = bs.1 ∧ x = pa.2 * bs.2 * 0.8 := by
  unfold hopCands
  rw [List.mem_flatMap]
  constructor
  · rintro ⟨pa, hpa, hmem⟩
    rw [List.mem_map] at hmem
    obtain ⟨bs, hbs, hEq⟩ := hmem
    cases hEq
    exact ⟨pa, hpa, bs, hbs, rfl, rfl⟩
  · rintro ⟨pa, hpa, bs, hbs, rfl, rfl⟩
    exact ⟨pa, hpa, List.mem_map.mpr ⟨bs, hbs, rfl⟩⟩

lemma strength_nonneg_of_mem {w : List (ℕ × List (ℕ × ℝ))}
    (hw : ∀ p ∈ w, ∀ e ∈ p.2, (0 : ℝ) ≤ e.2)
    {u v : ℕ} {s : ℝ} (hmem : (v, s) ∈ (dictGet? u w).getD []) : 0 ≤ s := by
  cases hadj : dictGet? u w with
  | none => rw [hadj] at hmem; simp at hmem
  | some adj =>
    rw [hadj] at hmem
    exact hw (u, adj) (mem_of_dictGet? hadj) (v, s) hmem

lemma spreadHop_inv (w : List (ℕ × List (ℕ × ℝ))) (start h : ℕ)
    (st : List (ℕ × ℝ) × List (ℕ × ℝ))
    (hw : ∀ p ∈ w, ∀ e ∈ p.2, (0 : ℝ) ≤ e.2)
    (hinv : SpreadInv w start h st) :
    SpreadInv w start (h + 1) (spreadHop w st) := by
  obtain ⟨ha1, ha2, hb, hc, hd1, hd2⟩ := hinv
  rw [spreadHop_eq]
  have h_reach_rec : ∀ v y, WalkVal w start h v y →
      ∃ mv, dictGet? v st.1 = some mv ∧ y ≤ mv ∧ WalkVal w start h v mv := by
    intro v y hy
    obtain ⟨mv, hmv⟩ := ha2 v y hy
    obtain ⟨hwmv, hmaxmv⟩ := ha1 v mv hmv
    exact ⟨mv, hmv, hmaxmv y hy, hwmv⟩
  have h_key : ∀ u mu s v2, dictGet? u st.1 = some mu →
      (v2, s) ∈ (dictGet? u w).getD [] →
      ∃ b, dictGet? v2 ((hopCands w st.2).foldl
        (fun acc c => spreadUpdate acc c.1 c.2) (st.1, [])).1 = some b ∧
        mu * s * 0.8 ≤ b := by
    intro u mu s v2 hmu hmem
    cases hF : dictGet? u st.2 with
    | some fu =>
      have hAu := hb u fu hF
      have hfu : fu = mu := Option.some.inj (hAu.symm.trans hmu)
      subst hfu
      have hcand : (v2, fu * s * 0.8) ∈ hopCands w st.2 :=
        mem_hopCands.mpr ⟨(u, fu), mem_of_dictGet? hF, (v2, s), hmem, rfl, rfl⟩
      exact foldUpd_lookup_cand _ _ _ _ hcand
    | none =>
      obtain ⟨b0, hb0, hle0⟩ := hc u mu hmu hF (v2, s) hmem
      obtain ⟨b, hbP, hleb⟩ := foldUpd_lookup_mono (hopCands w st.2)
        (st.1, []) v2 b0 hb0
      exact ⟨b, hbP, hle0.trans hleb⟩
  have h_max : ∀ v x, dictGet? v ((hopCands w st.2).foldl
      (fun acc c => spreadUpdate acc c.1 c.2) (st.1, [])).1 = some x →
      ∀ y, WalkVal w start (h + 1) v y → y ≤ x := by
    intro v x hx y hy
    rcases walkVal_succ.mp hy with hy2 | ⟨u, a, s, hwalk, hmem, rfl⟩
    · obtain ⟨mv, hmv, hylemv, _⟩ := h_reach_rec v y hy2
      obtain ⟨b, hbP, hmvb⟩ := foldUpd_lookup_mono (hopCands w st.2)
        (st.1, []) v mv hmv
      have hbx : b = x := Option.some.inj (hbP.symm.trans hx)
      exact hylemv.trans (hbx ▸ hmvb)
    · obtain ⟨mu, hmu, halemu, _⟩ := h_reach_rec u a hwalk
      have hs : 0 ≤ s := strength_nonneg_of_mem hw hmem
      have hstep : a * s * 0.8 ≤ mu * s * 0.8 := by
        have h1 : a * s ≤ mu * s := mul_le_mul_of_nonneg_right halemu hs
        have h2 : (0 : ℝ) ≤ 0.8 := by norm_num
        exact mul_le_mul_of_nonneg_right h1 h2
      obtain ⟨b, hbP, hleb⟩ := h_key u mu s v hmu hmem
      have hbx : b = x := Option.some.inj (hbP.symm.trans hx)
      exact hstep.trans (hbx ▸ hleb)
  refine ⟨?_, ?_, ?_, ?_, ?_, ?_⟩
  · intro v x hx
    refine ⟨?_, h_max v x hx⟩
    rcases foldUpd_lookup_sound (hopCands w st.2) (st.1, []) v x hx with h2 | h2
    · exact WalkVal.relax (ha1 v x h2).1
    · obtain ⟨pa, hpa, bs, hbs, rfl, rfl⟩ := mem_hopCands.mp h2
      have hAu := hb pa.1 pa.2 (dictGet?_of_mem hd2 hpa)
      exact WalkVal.step (ha1 pa.1 pa.2 hAu).1 hbs
  · intro v y hy
    rcases walkVal_succ.mp hy with hy2 | ⟨u, a, s, hwalk, hmem, rfl⟩
    · obtain ⟨mv, hmv, _, _⟩ := h_reach_rec v y hy2
      obtain ⟨b, hbP, _⟩ := foldUpd_lookup_mono (hopCands w st.2)
        (st.1, []) v mv hmv
      exact ⟨b, hbP⟩
    · obtain ⟨mu, hmu, _, _⟩ := h_reach_rec u a hwalk
      obtain ⟨b, hbP, _⟩ := h_key u mu s v hmu hmem
      exact ⟨b, hbP⟩
  · exact foldUpd_frontSub (hopCands w st.2) (st.1, [])
      (by intro v x hcontra; simp [dictGet?] at hcontra)
  · intro u a hA2 hF2 bs hbs
    obtain ⟨hstable, _⟩ := foldUpd_front_none (hopCands w st.2) (st.1, []) u hF2
    exact h_key u a bs.2 bs.1 (hstable.symm.trans hA2) hbs
  · exact (foldUpd_keysNodup (hopCands w st.2) (st.1, []) hd1 (by simp [keysNodup])).1
  · exact (foldUpd_keysNodup (hopCands w st.2) (st.1, []) hd1 (by simp [keysNodup])).2

lemma spreadIter_succ (w : List (ℕ × List (ℕ × ℝ))) :
    ∀ (n : ℕ) (st : List (ℕ × ℝ) × List (ℕ × ℝ)),
      spreadIter w (n + 1) st = spreadHop w (spreadIter w n st)
  | 0, _ => rfl
  | n + 1, st => by
    show spreadIter w (n + 1) (spreadHop w st) = _
    rw [spreadIter_succ w n (spreadHop w st)]
    rfl

lemma spreadIter_inv (w : List (ℕ × List (ℕ × ℝ))) (start : ℕ)
    (hw : ∀ p ∈ w, ∀ e ∈ p.2, (0 : ℝ) ≤ e.2) :
    ∀ depth : ℕ, SpreadInv w start depth
      (spreadIter w depth ([(start, 1)], [(start, 1)]))
  | 0 => by
    show SpreadInv w start 0 ([(start, 1)], [(start, 1)])
    refine ⟨?_, ?_, fun v x h => h, ?_, by simp [keysNodup], by simp [keysNodup]⟩
    · intro v x hx
      simp only [dictGet?] at hx
      split at hx
      · rename_i hv
        rw [Option.some.injEq] at hx
        subst hv
        subst hx
        exact ⟨WalkVal.base, fun y hy => (walkVal_zero.mp hy).2.le⟩
      · cases hx
    · intro v y hy
      obtain ⟨rfl, rfl⟩ := walkVal_zero.mp hy
      exact ⟨1, by simp [dictGet?]⟩
    · intro u a hA hF
      rw [hA] at hF
      cases hF
  | n + 1 => by
    rw [spreadIter_succ]
    exact spreadHop_inv w start n _ hw (spreadIter_inv w start hw n)

lemma spread_activation_mem (w : List (ℕ × List (ℕ × ℝ)))
    (start depth v : ℕ) (x : ℝ)
    (hw : ∀ p ∈ w, ∀ e ∈ p.2, (0 : ℝ) ≤ e.2) :
    (v, x) ∈ spread_activation w start depth ↔
      (WalkVal w start depth v x ∧
        ∀ y, WalkVal w start depth v y → y ≤ x) := by
  obtain ⟨ha1, ha2, hb, hc, hd1, hd2⟩ := spreadIter_inv w start hw depth
  unfold spread_activation
  rw [(pySortDesc_perm (fun p : ℕ × ℝ => p.2) _).mem_iff]
  constructor
  · intro hm
    exact ha1 v x (dictGet?_of_mem hd1 hm)
  · rintro ⟨hwv, hmax⟩
    obtain ⟨mv, hmv⟩ := ha2 v x hwv
    obtain ⟨hwmv, hmaxmv⟩ := ha1 v mv hmv
    have hEq : mv = x := le_antisymm (hmax mv hwmv) (hmaxmv x hwv)
    exact mem_of_dictGet? (hEq ▸ hmv)

lemma link_eval : link [] 0 1 1 = [(0, [(1, 1)]), (1, [(0, 1)])] := by
  unfold link adjAppend
  simp [dictGet?, dictInsert]

lemma spread_link_concrete :
    spread_activation (link [] 0 1 1) 0 1 = [(0, 1), (1, 0.8)] := by
  rw [link_eval]
  unfold spread_activation
  rw [show (1 : ℕ) = 0 + 1 from rfl, spreadIter_succ]
  show pySortDesc _ (spreadHop _ ([(0, 1)], [(0, 1)])).1 = _
  unfold spreadHop
  simp only [List.foldl_cons, List.foldl_nil]
  rw [show dictGet? 0 [(0, [((1 : ℕ), (1 : ℝ))]), (1, [(0, 1)])]
    = some [(1, 1)] by simp [dictGet?]]
  simp only [Option.getD_some, List.foldl_cons, List.foldl_nil]
  unfold spreadUpdate
  rw [show dictGet? 1 [((0 : ℕ), (1 : ℝ))] = none by simp [dictGet?]]
  simp only [dictInsert]
  norm_num
  unfold pySortDesc
  simp only [List.foldl_cons, List.foldl_nil]
  rw [show insertDesc (fun x : ℕ × ℝ => x.2) (0, 1) [] = [(0, 1)] from rfl]
  norm_num [insertDesc]

lemma wNeg_eval : wNeg =
    [(0, [(1, 1), (1, 1 / 2)]), (1, [(0, 1), (0, 1 / 2), (2, -1)]),
      (2, [(1, -1)])] := by
  unfold wNeg link adjAppend
  norm_num [dictGet?, dictInsert]

lemma spread_wNeg_eval :
    spread_activation wNeg 0 2 = [(0, 1), (1, 0.8), (2, -0.64)] := by
  unfold spread_activation
  rw [show (2 : ℕ) = 1 + 1 from rfl, spreadIter_succ,
    show (1 : ℕ) = 0 + 1 from rfl, spreadIter_succ]
  show pySortDesc _ (spreadHop wNeg (spreadHop wNeg ([(0, 1)], [(0, 1)]))).1 = _
  rw [wNeg_eval]
  norm_num [spreadHop, spreadUpdate, dictGet?, dictInsert, pySortDesc,
    insertDesc, List.foldl_cons, List.foldl_nil]

/-- **C9** (amended).  On an otherwise empty graph, after `link(A, B, 1.0)`
`spread_activation(A, depth=1)` returns exactly `[(A, 1.0), (B, 0.8)]`, and
the result is sorted descending by activation — both unconditionally.  The
"recorded activation = maximum over all paths within the hop budget of
(product of edge strengths × 0.8 per hop)" part holds only for graphs whose
edge strengths are all nonnegative (the amendment): the greedy
better-than-recorded test `activated[assoc_id] < new_activation` prunes a
frontier node whenever its candidate is dominated, even though with a
negative edge a dominated (smaller) intermediate activation can extend to a
larger final one (see the counterexample). -/
theorem C9_spread_activation_amended
    (w : List (ℕ × List (ℕ × ℝ))) (start depth v : ℕ) (x : ℝ)
    (hw : ∀ p ∈ w, ∀ e ∈ p.2, (0 : ℝ) ≤ e.2) :
    spread_activation (link [] 0 1 1) 0 1 = [(0, 1), (1, 0.8)] ∧
    ((v, x) ∈ spread_activation w start depth ↔
      WalkVal w start depth v x ∧ ∀ y, WalkVal w start depth v y → y ≤ x) ∧
    (spread_activation w start depth).Pairwise (fun a b => b.2 ≤ a.2) :=
  ⟨spread_link_concrete, spread_activation_mem w start depth v x hw,
    pySortDesc_pairwise (fun p : ℕ × ℝ => p.2) _⟩

/-- Witness for C9: the nonnegativity hypothesis holds on the two-node
graph `link [] 0 1 1`, where the theorem yields the concrete result list,
the walk-maximum characterisation of the recorded activation of node `0`,
and the descending order. -/
theorem C9_spread_activation_amended_witness :
    (∀ p ∈ link [] 0 1 1, ∀ e ∈ p.2, (0 : ℝ) ≤ e.2) ∧
    (spread_activation (link [] 0 1 1) 0 1 = [(0, 1), (1, 0.8)] ∧
      (((0 : ℕ), (1 : ℝ)) ∈ spread_activation (link [] 0 1 1) 0 1 ↔
        WalkVal (link [] 0 1 1) 0 1 0 1 ∧
          ∀ y, WalkVal (link [] 0 1 1) 0 1 0 y → y ≤ 1) ∧
      (spread_activation (link [] 0 1 1) 0 1).Pairwise
        (fun a b => b.2 ≤ a.2)) := by
  have hw : ∀ p ∈ link [] 0 1 1, ∀ e ∈ p.2, (0 : ℝ) ≤ e.2 := by
    rw [link_eval]
    intro p hp e he
    fin_cases hp <;> fin_cases he <;> norm_num
  exact ⟨hw, C9_spread_activation_amended (link [] 0 1 1) 0 1 0 1 hw⟩

/-- Counterexample to the unamended maximum-over-paths claim: in the graph
`wNeg` (parallel edges `0 → 1` of strengths `1` and `1/2`, and `1 → 2` of
strength `-1`), `spread_activation` from `0` with depth `2` records
activation `-0.64` at node `2` (via the stronger `0 → 1` edge), yet the
walk through the weaker edge attains value
`1 · (1/2) · 0.8 · (-1) · 0.8 = -0.32 > -0.64`: the recorded activation is
not the maximum over paths within the hop budget. -/
theorem C9_counterexample :
    ((2 : ℕ), (-0.64 : ℝ)) ∈ spread_activation wNeg 0 2 ∧
      WalkVal wNeg 0 2 2 (-0.32) ∧ ¬ ((-0.32 : ℝ) ≤ -0.64) := by
  refine ⟨?_, ?_, by norm_num⟩
  · rw [spread_wNeg_eval]
    norm_num
  · have h1 : WalkVal wNeg 0 1 1 (1 * (1 / 2) * 0.8) :=
      WalkVal.step WalkVal.base (by rw [wNeg_eval]; norm_num [dictGet?])
    have h2 : WalkVal wNeg 0 2 2 (1 * (1 / 2) * 0.8 * (-1) * 0.8) :=
      WalkVal.step h1 (by rw [wNeg_eval]; norm_num [dictGet?])
    have hv : (1 : ℝ) * (1 / 2) * 0.8 * (-1) * 0.8 = -0.32 := by norm_num
    exact hv ▸ h2

/-! ## Round-trip evaluation of the transform on the content "hi" -/

lemma list_sum_map_range (f : ℕ → ℝ) :
    ∀ n : ℕ, ((List.range n).map f).sum = ∑ k in Finset.range n, f k
  | 0 => rfl
  | n + 1 => by
    rw [List.range_succ, Finset.sum_range_succ, List.map_append,
      List.sum_append, list_sum_map_range f n]
    simp

lemma foldl_max_eq (a : ℝ) :
    ∀ l : List ℝ, (∀ x ∈ l, x ≤ a) → l.foldl max a = a
  | [], _ => rfl
  | x :: xs, h => by
    rw [List.foldl_cons, max_eq_left (h x (by simp))]
    exact foldl_max_eq a xs (fun y hy => h y (by simp [hy]))

lemma pyMax_map_range (f : ℕ → ℝ) (n : ℕ) (h : ∀ k, f k ≤ f 0) :
    pyMax ((List.range (n + 1)).map f) = f 0 := by
  unfold pyMax
  rw [List.range_succ_eq_map, List.map_cons, List.headD_cons, List.foldl_cons,
    max_self]
  refine foldl_max_eq (f 0) _ ?_
  intro x hx
  rw [List.map_map] at hx
  obtain ⟨j, _, rfl⟩ := List.mem_map.mp hx
  exact h _

lemma exp_pow_n (n m : ℕ) (hn : 0 < n) :
    Complex.exp (2 * Real.pi * Complex.I * m / n) ^ n = 1 := by
  rw [← Complex.exp_nat_mul]
  have hne : (n : ℂ) ≠ 0 := Nat.cast_ne_zero.mpr hn.ne'
  have : (n : ℂ) * (2 * Real.pi * Complex.I * m / n)
      = (m : ℤ) * (2 * (Real.pi : ℂ) * Complex.I) := by
    field_simp
    ring
  rw [this, Complex.exp_int_mul_two_pi_mul_I]

lemma exp_ne_one (n m : ℕ) (hn : 0 < n) (hnd : ¬ n ∣ m) :
    Complex.exp (2 * Real.pi * Complex.I * m / n) ≠ 1 := by
  intro h
  obtain ⟨j, hj⟩ := Complex.exp_eq_one_iff.mp h
  have hne : (n : ℂ) ≠ 0 := Nat.cast_ne_zero.mpr hn.ne'
  have h2pi : (2 * (Real.pi : ℂ) * Complex.I) ≠ 0 := by
    simp [Complex.ofReal_ne_zero, Real.pi_ne_zero, Complex.I_ne_zero]
  rw [div_eq_iff hne] at hj
  have hmn : (m : ℂ) = j * n := by
    apply mul_left_cancel₀ h2pi
    linear_combination hj
  have hmz : (m : ℤ) = j * n := by exact_mod_cast hmn
  have hj0 : 0 ≤ j := by
    by_contra hneg
    push_neg at hneg
    have hlt : j * (n : ℤ) < 0 :=
      mul_neg_of_neg_of_pos hneg (by exact_mod_cast hn)
    have hge : (0 : ℤ) ≤ j * n := hmz ▸ Int.ofNat_nonneg m
    exact absurd hge (not_le.mpr hlt)
  refine hnd ⟨j.toNat, ?_⟩
  have hmz2 : (m : ℤ) = n * j.toNat := by
    rw [Int.toNat_of_nonneg hj0, mul_comm]
    exact hmz
  exact_mod_cast hmz2

lemma cos_sum_orth (n m : ℕ) (hn : 0 < n) :
    ∑ k in Finset.range n, Real.cos (2 * Real.pi * (k : ℝ) * (m : ℝ) / (n : ℝ))
      = if n ∣ m then (n : ℝ) else 0 := by
  have hre : ∀ k : ℕ,
      Real.cos (2 * Real.pi * (k : ℝ) * (m : ℝ) / (n : ℝ))
        = (Complex.exp (2 * Real.pi * Complex.I * m / n) ^ k).re := by
    intro k
    rw [← Complex.exp_nat_mul]
    have : (k : ℂ) * (2 * Real.pi * Complex.I * m / n)
        = ((2 * Real.pi * (k : ℝ) * (m : ℝ) / (n : ℝ) : ℝ) : ℂ) * Complex.I := by
      push_cast
      ring
    rw [this, Complex.exp_ofReal_mul_I_re]
  rw [Finset.sum_congr rfl (fun k _ => hre k), ← Complex.re_sum]
  by_cases hd : n ∣ m
  · rw [if_pos hd]
    obtain ⟨c, rfl⟩ := hd
    have hone : Complex.exp (2 * Real.pi * Complex.I * (n * c : ℕ) / n) = 1 := by
      have hne : (n : ℂ) ≠ 0 := Nat.cast_ne_zero.mpr hn.ne'
      have : (2 : ℂ) * Real.pi * Complex.I * (n * c : ℕ) / n
          = (c : ℤ) * (2 * (Real.pi : ℂ) * Complex.I) := by
        push_cast
        field_simp
        ring
      rw [this, Complex.exp_int_mul_two_pi_mul_I]
    rw [Finset.sum_congr rfl (fun k _ => by rw [hone, one_pow])]
    simp
  · rw [if_neg hd, geom_sum_eq (exp_ne_one n m hn hd), exp_pow_n n m hn]
    simp

lemma hi_wave : text_to_wave 64 [104, 105]
    = (List.range 64).map (fun i => (([104, 105].getD i 0 : ℕ) : ℝ) / 255) := by
  unfold text_to_wave
  rw [if_pos (by norm_num)]

lemma hi_length : (text_to_wave 64 [104, 105]).length = 64 := by
  rw [hi_wave]
  simp

lemma hi_getD (t : ℕ) (ht : t < 64) :
    (text_to_wave 64 [104, 105]).getD t 0
      = (if t = 0 then (104 : ℝ) else if t = 1 then 105 else 0) / 255 := by
  rw [hi_wave]
  rw [show (0 : ℝ) = default from rfl, getD_map_range, if_pos ht]
  match t with
  | 0 => norm_num [List.getD]
  | 1 => norm_num [List.getD]
  | (t + 2) => simp [List.getD, show (default : ℝ) = 0 from rfl]

lemma hi_dftRe (k : ℕ) :
    dftRe (text_to_wave 64 [104, 105]) k
      = (104 + 105 * Real.cos (2 * Real.pi * (k : ℝ) / 64)) / 255 := by
  unfold dftRe
  rw [hi_length]
  rw [Finset.sum_congr rfl (fun t ht => by
    rw [hi_getD t (Finset.mem_range.mp ht), Nat.cast_ofNat])]
  rw [← Finset.sum_subset (show ({0, 1} : Finset ℕ) ⊆ Finset.range 64 by decide)
    (fun t _ hnot => by
      rw [Finset.mem_insert, Finset.mem_singleton] at hnot
      push_neg at hnot
      rw [if_neg hnot.1, if_neg hnot.2]
      ring)]
  rw [show ({0, 1} : Finset ℕ) = insert 0 {1} from rfl,
    Finset.sum_insert (by decide), Finset.sum_singleton]
  norm_num
  rw [show -(2 * Real.pi * (k : ℝ)) / 64 = -(2 * Real.pi * (k : ℝ) / 64) by ring,
    Real.cos_neg]
  ring

lemma hi_dftIm (k : ℕ) :
    dftIm (text_to_wave 64 [104, 105]) k
      = -(105 * Real.sin (2 * Real.pi * (k : ℝ) / 64)) / 255 := by
  unfold dftIm
  rw [hi_length]
  rw [Finset.sum_congr rfl (fun t ht => by
    rw [hi_getD t (Finset.mem_range.mp ht), Nat.cast_ofNat])]
  rw [← Finset.sum_subset (show ({0, 1} : Finset ℕ) ⊆ Finset.range 64 by decide)
    (fun t _ hnot => by
      rw [Finset.mem_insert, Finset.mem_singleton] at hnot
      push_neg at hnot
      rw [if_neg hnot.1, if_neg hnot.2]
      ring)]
  rw [show ({0, 1} : Finset ℕ) = insert 0 {1} from rfl,
    Finset.sum_insert (by decide), Finset.sum_singleton]
  norm_num
  rw [show -(2 * Real.pi * (k : ℝ)) / 64 = -(2 * Real.pi * (k : ℝ) / 64) by ring,
    Real.sin_neg]
  ring

lemma hi_dftAmp (k : ℕ) :
    dftAmp (text_to_wave 64 [104, 105]) k
      = Real.sqrt (21841 + 21840 * Real.cos (2 * Real.pi * (k : ℝ) / 64)) / 255 := by
  unfold dftAmp
  rw [hi_dftRe, hi_dftIm]
  have hsq : ((104 + 105 * Real.cos (2 * Real.pi * (k : ℝ) / 64)) / 255) ^ 2
      + (-(105 * Real.sin (2 * Real.pi * (k : ℝ) / 64)) / 255) ^ 2
      = (21841 + 21840 * Real.cos (2 * Real.pi * (k : ℝ) / 64)) / 255 ^ 2 := by
    linear_combination (11025 / 65025 : ℝ)
      * Real.sin_sq_add_cos_sq (2 * Real.pi * (k : ℝ) / 64)
  rw [hsq, Real.sqrt_div (by nlinarith [Real.neg_one_le_cos (2 * Real.pi * (k : ℝ) / 64)]),
    Real.sqrt_sq (by norm_num : (0 : ℝ) ≤ 255)]

lemma hi_amp_pos (k : ℕ) : 0 < dftAmp (text_to_wave 64 [104, 105]) k := by
  rw [hi_dftAmp]
  have h1 : (0 : ℝ) < 21841 + 21840 * Real.cos (2 * Real.pi * (k : ℝ) / 64) := by
    nlinarith [Real.neg_one_le_cos (2 * Real.pi * (k : ℝ) / 64)]
  exact div_pos (Real.sqrt_pos.mpr h1) (by norm_num)

lemma hi_amp_zero : dftAmp (text_to_wave 64 [104, 105]) 0 = 209 / 255 := by
  rw [hi_dftAmp]
  norm_num
  rw [show (43681 : ℝ) = 209 ^ 2 by norm_num,
    Real.sqrt_sq (by norm_num : (0 : ℝ) ≤ 209)]

lemma hi_amp_le (k : ℕ) :
    dftAmp (text_to_wave 64 [104, 105]) k ≤ dftAmp (text_to_wave 64 [104, 105]) 0 := by
  rw [hi_dftAmp, hi_amp_zero]
  have h1 : Real.sqrt (21841 + 21840 * Real.cos (2 * Real.pi * (k : ℝ) / 64))
      ≤ 209 := by
    rw [show (209 : ℝ) = Real.sqrt (209 ^ 2) from
      (Real.sqrt_sq (by norm_num : (0 : ℝ) ≤ 209)).symm]
    apply Real.sqrt_le_sqrt
    nlinarith [Real.cos_le_one (2 * Real.pi * (k : ℝ) / 64)]
  linarith

lemma hi_pyMax :
    pyMax ((List.range 64).map (dftAmp (text_to_wave 64 [104, 105]))) = 209 / 255 := by
  rw [show (64 : ℕ) = 63 + 1 from rfl,
    pyMax_map_range (dftAmp (text_to_wave 64 [104, 105])) 63 hi_amp_le, hi_amp_zero]

lemma hi_dft : dft (text_to_wave 64 [104, 105])
    = .ok ((List.range 64).map (dftPhase (text_to_wave 64 [104, 105])),
      ((List.range 64).map (dftAmp (text_to_wave 64 [104, 105]))).map
        (fun a => a / (209 / 255))) := by
  have h := dft_ok (text_to_wave 64 [104, 105]) (by rw [hi_length]; norm_num)
    (by rw [hi_length, hi_pyMax]; norm_num)
  rw [hi_length, hi_pyMax] at h
  exact h

lemma hi_ampN (k : ℕ) :
    dftAmp (text_to_wave 64 [104, 105]) k / (209 / 255)
      = Real.sqrt (21841 + 21840 * Real.cos (2 * Real.pi * (k : ℝ) / 64)) / 209 := by
  rw [hi_dftAmp]
  ring

lemma hi_pair_bound (x : ℝ) (hx : |x| ≤ 21840) :
    210 ≤ Real.sqrt (21841 + x) + Real.sqrt (21841 - x) := by
  obtain ⟨hx1, hx2⟩ := abs_le.mp hx
  have h1 : (0 : ℝ) ≤ 21841 + x := by linarith
  have h2 : (0 : ℝ) ≤ 21841 - x := by linarith
  have h3 : (209 : ℝ) ≤ Real.sqrt ((21841 + x) * (21841 - x)) := by
    rw [show (209 : ℝ) = Real.sqrt (209 ^ 2) from
      (Real.sqrt_sq (by norm_num : (0 : ℝ) ≤ 209)).symm]
    apply Real.sqrt_le_sqrt
    nlinarith
  have e1 := Real.sq_sqrt h1
  have e2 := Real.sq_sqrt h2
  have e3 : Real.sqrt (21841 + x) * Real.sqrt (21841 - x)
      = Real.sqrt ((21841 + x) * (21841 - x)) := (Real.sqrt_mul h1 _).symm
  have h4 : (210 : ℝ) ^ 2
      ≤ (Real.sqrt (21841 + x) + Real.sqrt (21841 - x)) ^ 2 := by
    nlinarith [h3, e1, e2, e3]
  have h5 : (0 : ℝ) ≤ Real.sqrt (21841 + x) + Real.sqrt (21841 - x) := by
    positivity
  have h6 := Real.sqrt_le_sqrt h4
  rwa [Real.sqrt_sq (by norm_num : (0 : ℝ) ≤ 210), Real.sqrt_sq h5] at h6

lemma hi_cos_shift (k : ℕ) :
    Real.cos (2 * Real.pi * ((32 + k : ℕ) : ℝ) / 64)
      = -Real.cos (2 * Real.pi * (k : ℝ) / 64) := by
  have h : 2 * Real.pi * ((32 + k : ℕ) : ℝ) / 64
      = Real.pi + 2 * Real.pi * (k : ℝ) / 64 := by
    push_cast
    ring
  rw [h, Real.cos_add, Real.cos_pi, Real.sin_pi]
  ring

lemma hi_sum_lower :
    (32 : ℝ) * (210 / 209)
      ≤ (((List.range 64).map (dftAmp (text_to_wave 64 [104, 105]))).map
          (fun a => a / (209 / 255))).sum := by
  rw [List.map_map]
  rw [show ((fun a => a / ((209 : ℝ) / 255)) ∘ dftAmp (text_to_wave 64 [104, 105]))
    = fun k => dftAmp (text_to_wave 64 [104, 105]) k / (209 / 255) from rfl]
  rw [list_sum_map_range]
  rw [Finset.sum_congr rfl (fun k _ => hi_ampN k)]
  have hsplit : ∑ k in Finset.range 64,
      Real.sqrt (21841 + 21840 * Real.cos (2 * Real.pi * (k : ℝ) / 64)) / 209
      = ∑ k in Finset.range 32,
        (Real.sqrt (21841 + 21840 * Real.cos (2 * Real.pi * (k : ℝ) / 64)) / 209
          + Real.sqrt (21841 + 21840 * Real.cos (2 * Real.pi * ((32 + k : ℕ) : ℝ) / 64)) / 209) := by
    rw [Finset.sum_add_distrib]
    have h1 : ∑ k in Finset.range 32,
        Real.sqrt (21841 + 21840 * Real.cos (2 * Real.pi * ((32 + k : ℕ) : ℝ) / 64)) / 209
        = ∑ k in Finset.Ico (32 : ℕ) 64,
          Real.sqrt (21841 + 21840 * Real.cos (2 * Real.pi * (k : ℝ) / 64)) / 209 := by
      rw [Finset.sum_Ico_eq_sum_range]
    rw [h1, Finset.range_eq_Ico,
      Finset.sum_Ico_consecutive _ (by norm_num : (0 : ℕ) ≤ 32) (by norm_num : (32 : ℕ) ≤ 64)]
  rw [hsplit]
  have hbound : ∀ k ∈ Finset.range 32,
      (210 : ℝ) / 209
        ≤ Real.sqrt (21841 + 21840 * Real.cos (2 * Real.pi * (k : ℝ) / 64)) / 209
          + Real.sqrt (21841 + 21840 * Real.cos (2 * Real.pi * ((32 + k : ℕ) : ℝ) / 64)) / 209 := by
    intro k _
    rw [hi_cos_shift,
      show (21841 : ℝ) + 21840 * -Real.cos (2 * Real.pi * (k : ℝ) / 64)
        = 21841 - 21840 * Real.cos (2 * Real.pi * (k : ℝ) / 64) by ring,
      div_add_div_same]
    have hx : |(21840 : ℝ) * Real.cos (2 * Real.pi * (k : ℝ) / 64)| ≤ 21840 := by
      rw [abs_mul, abs_of_nonneg (by norm_num : (0 : ℝ) ≤ 21840)]
      nlinarith [Real.abs_cos_le_one (2 * Real.pi * (k : ℝ) / 64)]
    have := hi_pair_bound _ hx
    linarith
  calc (32 : ℝ) * (210 / 209) = ∑ _k in Finset.range 32, (210 : ℝ) / 209 := by
        rw [Finset.sum_const, Finset.card_range]
        ring
    _ ≤ _ := Finset.sum_le_sum hbound

lemma hi_coh_ge :
    (105 : ℝ) / 209
      ≤ (((List.range 64).map (dftAmp (text_to_wave 64 [104, 105]))).map
          (fun a => a / (209 / 255))).sum / 64 := by
  have h := hi_sum_lower
  linarith

lemma hi_cos_phase (k : ℕ) :
    dftAmp (text_to_wave 64 [104, 105]) k / (209 / 255)
        * Real.cos (dftPhase (text_to_wave 64 [104, 105]) k)
      = dftRe (text_to_wave 64 [104, 105]) k * (255 / 209) := by
  have habs : Complex.abs ⟨dftRe (text_to_wave 64 [104, 105]) k,
      dftIm (text_to_wave 64 [104, 105]) k⟩
      = dftAmp (text_to_wave 64 [104, 105]) k := by
    rw [Complex.abs_apply, Complex.normSq_mk]
    unfold dftAmp
    ring_nf
  have hz : (⟨dftRe (text_to_wave 64 [104, 105]) k,
      dftIm (text_to_wave 64 [104, 105]) k⟩ : ℂ) ≠ 0 :=
    Complex.abs.ne_zero_iff.mp (by rw [habs]; exact (hi_amp_pos k).ne')
  unfold dftPhase
  rw [Complex.cos_arg hz, habs]
  dsimp only
  have hA : dftAmp (text_to_wave 64 [104, 105]) k ≠ 0 := (hi_amp_pos k).ne'
  field_simp
  ring

lemma hi_sin_phase (k : ℕ) :
    dftAmp (text_to_wave 64 [104, 105]) k / (209 / 255)
        * Real.sin (dftPhase (text_to_wave 64 [104, 105]) k)
      = dftIm (text_to_wave 64 [104, 105]) k * (255 / 209) := by
  have habs : Complex.abs ⟨dftRe (text_to_wave 64 [104, 105]) k,
      dftIm (text_to_wave 64 [104, 105]) k⟩
      = dftAmp (text_to_wave 64 [104, 105]) k := by
    rw [Complex.abs_apply, Complex.normSq_mk]
    unfold dftAmp
    ring_nf
  unfold dftPhase
  rw [Complex.sin_arg, habs]
  dsimp only
  have hA : dftAmp (text_to_wave 64 [104, 105]) k ≠ 0 := (hi_amp_pos k).ne'
  field_simp
  ring

lemma hi_ampN_getD (k : ℕ) (hk : k < 64) :
    ((((List.range 64).map (dftAmp (text_to_wave 64 [104, 105]))).map
      (fun a => a / (209 / 255)))).getD k 0
      = dftAmp (text_to_wave 64 [104, 105]) k / (209 / 255) := by
  rw [List.map_map]
  rw [show (0 : ℝ) = default from rfl, getD_map_range, if_pos hk]
  rfl

lemma hi_phase_getD (k : ℕ) (hk : k < 64) :
    ((List.range 64).map (dftPhase (text_to_wave 64 [104, 105]))).getD k 0
      = dftPhase (text_to_wave 64 [104, 105]) k := by
  rw [show (0 : ℝ) = default from rfl, getD_map_range, if_pos hk]

lemma cos_sum_orth64 (m : ℕ) :
    ∑ k in Finset.range 64, Real.cos (2 * Real.pi * (k : ℝ) * (m : ℝ) / 64)
      = if 64 ∣ m then 64 else 0 := by
  have h := cos_sum_orth 64 m (by norm_num)
  push_cast at h
  exact h

lemma hi_inner_sum (t : ℕ) (ht : t < 64) :
    ∑ k in Finset.range 64,
      (((((List.range 64).map (dftAmp (text_to_wave 64 [104, 105]))).map
          (fun a => a / (209 / 255)))).getD k 0
          * Real.cos (((List.range 64).map
              (dftPhase (text_to_wave 64 [104, 105]))).getD k 0)
          * Real.cos (2 * Real.pi * (k : ℝ) * (t : ℝ) / 64)
        - ((((List.range 64).map (dftAmp (text_to_wave 64 [104, 105]))).map
            (fun a => a / (209 / 255)))).getD k 0
          * Real.sin (((List.range 64).map
              (dftPhase (text_to_wave 64 [104, 105]))).getD k 0)
          * Real.sin (2 * Real.pi * (k : ℝ) * (t : ℝ) / 64))
      = 64 * ((if t = 0 then (104 : ℝ) else if t = 1 then 105 else 0) / 209) := by
  have hstep : ∀ k ∈ Finset.range 64,
      ((((List.range 64).map (dftAmp (text_to_wave 64 [104, 105]))).map
          (fun a => a / (209 / 255)))).getD k 0
          * Real.cos (((List.range 64).map
              (dftPhase (text_to_wave 64 [104, 105]))).getD k 0)
          * Real.cos (2 * Real.pi * (k : ℝ) * (t : ℝ) / 64)
        - ((((List.range 64).map (dftAmp (text_to_wave 64 [104, 105]))).map
            (fun a => a / (209 / 255)))).getD k 0
          * Real.sin (((List.range 64).map
              (dftPhase (text_to_wave 64 [104, 105]))).getD k 0)
          * Real.sin (2 * Real.pi * (k : ℝ) * (t : ℝ) / 64)
      = 104 / 209 * Real.cos (2 * Real.pi * (k : ℝ) * (t : ℝ) / 64)
        + 105 / 209 * Real.cos (2 * Real.pi * (k : ℝ) * (t : ℝ) / 64
            - 2 * Real.pi * (k : ℝ) / 64) := by
    intro k hk
    rw [hi_ampN_getD k (Finset.mem_range.mp hk),
      hi_phase_getD k (Finset.mem_range.mp hk),
      hi_cos_phase k, hi_sin_phase k, hi_dftRe k, hi_dftIm k, Real.cos_sub]
    ring
  rw [Finset.sum_congr rfl hstep, Finset.sum_add_distrib, ← Finset.mul_sum,
    ← Finset.mul_sum]
  match t with
  | 0 =>
    have h2 : ∀ k ∈ Finset.range 64,
        Real.cos (2 * Real.pi * (k : ℝ) * ((0 : ℕ) : ℝ) / 64
            - 2 * Real.pi * (k : ℝ) / 64)
          = Real.cos (2 * Real.pi * (k : ℝ) * ((1 : ℕ) : ℝ) / 64) := by
      intro k _
      rw [show 2 * Real.pi * (k : ℝ) * ((0 : ℕ) : ℝ) / 64
            - 2 * Real.pi * (k : ℝ) / 64
          = -(2 * Real.pi * (k : ℝ) * ((1 : ℕ) : ℝ) / 64) by push_cast; ring,
        Real.cos_neg]
    rw [Finset.sum_congr rfl h2, cos_sum_orth64 0, cos_sum_orth64 1]
    norm_num
  | 1 =>
    have h2 : ∀ k ∈ Finset.range 64,
        Real.cos (2 * Real.pi * (k : ℝ) * ((1 : ℕ) : ℝ) / 64
            - 2 * Real.pi * (k : ℝ) / 64)
          = Real.cos (2 * Real.pi * (k : ℝ) * ((0 : ℕ) : ℝ) / 64) := by
      intro k _
      rw [show 2 * Real.pi * (k : ℝ) * ((1 : ℕ) : ℝ) / 64
            - 2 * Real.pi * (k : ℝ) / 64
          = 2 * Real.pi * (k : ℝ) * ((0 : ℕ) : ℝ) / 64 by push_cast; ring]
    rw [Finset.sum_congr rfl h2, cos_sum_orth64 0, cos_sum_orth64 1]
    norm_num
  | (t2 + 2) =>
    have hnd1 : ¬ (64 ∣ (t2 + 2)) := fun hdvd =>
      absurd (Nat.le_of_dvd (by omega) hdvd) (by omega)
    have hnd2 : ¬ (64 ∣ (t2 + 1)) := fun hdvd =>
      absurd (Nat.le_of_dvd (by omega) hdvd) (by omega)
    have h2 : ∀ k ∈ Finset.range 64,
        Real.cos (2 * Real.pi * (k : ℝ) * ((t2 + 2 : ℕ) : ℝ) / 64
            - 2 * Real.pi * (k : ℝ) / 64)
          = Real.cos (2 * Real.pi * (k : ℝ) * ((t2 + 1 : ℕ) : ℝ) / 64) := by
      intro k _
      rw [show 2 * Real.pi * (k : ℝ) * ((t2 + 2 : ℕ) : ℝ) / 64
            - 2 * Real.pi * (k : ℝ) / 64
          = 2 * Real.pi * (k : ℝ) * ((t2 + 1 : ℕ) : ℝ) / 64 by push_cast; ring]
    rw [Finset.sum_congr rfl h2, cos_sum_orth64 (t2 + 2), cos_sum_orth64 (t2 + 1),
      if_neg hnd1, if_neg hnd2]
    norm_num
    omega

lemma hi_inverse :
    inverse_dft ((List.range 64).map (dftPhase (text_to_wave 64 [104, 105])))
        (((List.range 64).map (dftAmp (text_to_wave 64 [104, 105]))).map
          (fun a => a / (209 / 255)))
      = (List.range 64).map
          (fun t => (if t = 0 then (104 : ℝ) else if t = 1 then 105 else 0) / 209) := by
  unfold inverse_dft
  simp only [List.length_map, List.length_range, Nat.cast_ofNat]
  apply List.map_congr_left
  intro t ht
  rw [List.mem_range] at ht
  rw [hi_inner_sum t ht]
  field_simp
  split <;> [ring; skip]
  split <;> [ring; rfl]

lemma hi_trunc_bytes :
    ((List.range 64).map
        (fun t => (if t = 0 then (104 : ℝ) else if t = 1 then 105 else 0) / 209)).map
      (fun s => pyTrunc (s * 255))
      = 126 :: 128 :: List.replicate 62 0 := by
  rw [List.map_map]
  have h0 : pyTrunc ((104 : ℝ) / 209 * 255) = 126 := by
    unfold pyTrunc
    rw [if_pos (by norm_num)]
    exact Int.floor_eq_iff.mpr ⟨by norm_num, by norm_num⟩
  have h1 : pyTrunc ((105 : ℝ) / 209 * 255) = 128 := by
    unfold pyTrunc
    rw [if_pos (by norm_num)]
    exact Int.floor_eq_iff.mpr ⟨by norm_num, by norm_num⟩
  have hfun : ∀ t : ℕ,
      pyTrunc ((if t = 0 then (104 : ℝ) else if t = 1 then 105 else 0) / 209 * 255)
        = if t = 0 then (126 : ℤ) else if t = 1 then 128 else 0 := by
    intro t
    match t with
    | 0 => simpa using h0
    | 1 => simpa using h1
    | (j + 2) =>
      rw [if_neg (by omega), if_neg (by omega), if_neg (by omega), if_neg (by omega)]
      rw [show ((0 : ℝ) / 209 * 255) = 0 by norm_num]
      unfold pyTrunc
      rw [if_pos le_rfl]
      exact Int.floor_zero
  have hmc : List.map ((fun s => pyTrunc (s * 255))
        ∘ fun t => (if t = 0 then (104 : ℝ) else if t = 1 then 105 else 0) / 209)
        (List.range 64)
      = List.map (fun t => if t = 0 then (126 : ℤ) else if t = 1 then 128 else 0)
        (List.range 64) :=
    List.map_congr_left (fun t _ => hfun t)
  rw [hmc]
  decide

lemma hi_pyBytes :
    pyBytes (126 :: 128 :: List.replicate 62 0)
      = .ok (126 :: 128 :: List.replicate 62 0) := by
  unfold pyBytes
  rw [if_pos]
  · decide
  · intro z hz
    rcases List.mem_cons.mp hz with rfl | hz2
    · omega
    rcases List.mem_cons.mp hz2 with rfl | hz3
    · omega
    rw [List.eq_of_mem_replicate hz3]
    omega

lemma hi_decode :
    utf8DecodeIgnore (126 :: 128 :: List.replicate 62 0)
      = 126 :: List.replicate 62 0 := by
  decide

lemma hi_filter_strip :
    pyStrip ((126 :: List.replicate 62 0).filter (fun c => c != 0)) = [126] := by
  rw [List.filter_cons_of_pos (by norm_num), List.filter_replicate]
  norm_num
  rfl

lemma hi_mkPattern :
    mkPattern 64 [104, 105]
      = .ok ((List.range 64).map (dftPhase (text_to_wave 64 [104, 105])),
          ((List.range 64).map (dftAmp (text_to_wave 64 [104, 105]))).map
            (fun a => a / (209 / 255)),
          (((List.range 64).map (dftAmp (text_to_wave 64 [104, 105]))).map
            (fun a => a / (209 / 255))).sum / 64) := by
  unfold mkPattern
  rw [hi_dft]
  have hne : (((List.range 64).map (dftAmp (text_to_wave 64 [104, 105]))).map
      (fun a => a / (209 / 255))) ≠ [] := by simp
  simp only [if_neg hne]
  simp

lemma hi_coh_gate :
    ¬ ((((List.range 64).map (dftAmp (text_to_wave 64 [104, 105]))).map
        (fun a => a / (209 / 255))).sum / 64 < 0.5) := by
  push_neg
  have h2 : (0.5 : ℝ) ≤ 105 / 209 := by norm_num
  linarith [hi_coh_ge]

lemma hi_store (pid : List ℕ → ℕ) :
    store pid mkPattern ⟨64, 100000, [], []⟩ [104, 105] []
      = .ok (⟨64, 100000, [(pid [104, 105],
          ⟨(List.range 64).map (dftPhase (text_to_wave 64 [104, 105])),
           ((List.range 64).map (dftAmp (text_to_wave 64 [104, 105]))).map
             (fun a => a / (209 / 255)), [],
           (((List.range 64).map (dftAmp (text_to_wave 64 [104, 105]))).map
             (fun a => a / (209 / 255))).sum / 64⟩)], []⟩, pid [104, 105]) := by
  rw [store_eq, hi_mkPattern]
  unfold storeStep
  dsimp only
  rw [List.foldl_nil]
  rw [if_neg (by norm_num [dictInsert])]
  rfl

lemma hi_reconstruct (pid : List ℕ → ℕ) :
    reconstruct ⟨64, 100000, [(pid [104, 105],
        ⟨(List.range 64).map (dftPhase (text_to_wave 64 [104, 105])),
         ((List.range 64).map (dftAmp (text_to_wave 64 [104, 105]))).map
           (fun a => a / (209 / 255)), [],
         (((List.range 64).map (dftAmp (text_to_wave 64 [104, 105]))).map
           (fun a => a / (209 / 255))).sum / 64⟩)], []⟩ (pid [104, 105])
      = .ok (some [126]) := by
  unfold reconstruct
  rw [show dictGet? (pid [104, 105]) [(pid [104, 105],
      (⟨(List.range 64).map (dftPhase (text_to_wave 64 [104, 105])),
       ((List.range 64).map (dftAmp (text_to_wave 64 [104, 105]))).map
         (fun a => a / (209 / 255)), [],
       (((List.range 64).map (dftAmp (text_to_wave 64 [104, 105]))).map
         (fun a => a / (209 / 255))).sum / 64⟩ : MemoryPattern ℝ))]
    = some ⟨(List.range 64).map (dftPhase (text_to_wave 64 [104, 105])),
       ((List.range 64).map (dftAmp (text_to_wave 64 [104, 105]))).map
         (fun a => a / (209 / 255)), [],
       (((List.range 64).map (dftAmp (text_to_wave 64 [104, 105]))).map
         (fun a => a / (209 / 255))).sum / 64⟩ by simp [dictGet?]]
  simp only
  rw [if_neg hi_coh_gate]
  rw [hi_inverse, hi_trunc_bytes, hi_pyBytes]
  simp only
  rw [hi_decode]
  rw [hi_filter_strip]

/-- **C4** (amended).  The degraded-content gate holds exactly as claimed:
for every stored pattern whose coherence is below `0.5`, `reconstruct`
returns the `"[Pattern degraded]"` sentinel without attempting inversion.
The round-trip half is corrected: with `dimensions = 64` and content
`"hi"` (UTF-8 bytes `[104, 105]`), the stored amplitude spectrum is
normalised by the peak amplitude `209/255`, so the inverse transform
returns the original signal divided by `209/255`; truncation then yields
bytes `126` (`"~"`) and `128` (an invalid UTF-8 byte the
`errors='ignore'` decode drops), and `reconstruct` returns `"~"`
(code points `[126]`), not `"hi"`. -/
theorem C4_reconstruct_amended (pid : List ℕ → ℕ) :
    (∀ (m : HolographicMemory ℝ) (id2 : ℕ) (pat : MemoryPattern ℝ),
        dictGet? id2 m.patterns = some pat → pat.coherence < 0.5 →
        reconstruct m id2 = .ok (some degradedSentinel)) ∧
    (∃ m1 : HolographicMemory ℝ,
        store pid mkPattern ⟨64, 100000, [], []⟩ [104, 105] []
          = .ok (m1, pid [104, 105]) ∧
        reconstruct m1 (pid [104, 105]) = .ok (some [126])) := by
  refine ⟨fun m id2 pat hget hcoh => ?_, ⟨_, hi_store pid, hi_reconstruct pid⟩⟩
  unfold reconstruct
  rw [hget]
  simp only
  rw [if_pos hcoh]

/-- Witness for C4: a memory holding one pattern of coherence `0.4 < 0.5`
under id `5`, on which the theorem's gate clause produces the degraded
sentinel. -/
theorem C4_reconstruct_amended_witness :
    dictGet? 5 ((⟨64, 100000, [(5, ⟨[], [], [], 0.4⟩)], []⟩ :
        HolographicMemory ℝ)).patterns = some ⟨[], [], [], 0.4⟩ ∧
    ((0.4 : ℝ) < 0.5) ∧
    reconstruct ⟨64, 100000, [(5, ⟨[], [], [], 0.4⟩)], []⟩ 5
      = .ok (some degradedSentinel) := by
  refine ⟨by simp [dictGet?], by norm_num, ?_⟩
  exact (C4_reconstruct_amended (fun _ => 0)).1 _ 5 ⟨[], [], [], 0.4⟩
    (by simp [dictGet?]) (by norm_num)

/-- Counterexample to the round-trip half of the unamended claim: storing
`"hi"` (`[104, 105]`) at `dimensions = 64` and reconstructing the returned
id yields the code points `[126]` (the string `"~"`), which differ from
`"hi"` even after stripping null padding.  The loss comes from the
unrestored amplitude normalisation: `_dft` divides every amplitude by the
peak `209/255`, and `_inverse_dft` never multiplies it back, so
`int(s * 255)` truncates `104·255/209 ≈ 126.9` to `126` and
`105·255/209 ≈ 128.1` to `128`, and byte `128` is dropped by the
`errors='ignore'` UTF-8 decode. -/
theorem C4_counterexample :
    ∃ m1 : HolographicMemory ℝ,
      store (fun _ => 7) mkPattern ⟨64, 100000, [], []⟩ [104, 105] []
        = .ok (m1, 7) ∧
      reconstruct m1 7 = .ok (some [126]) ∧
      ([126] : List ℕ) ≠ [104, 105] :=
  ⟨_, hi_store (fun _ => 7), hi_reconstruct (fun _ => 7), by decide⟩
